import Mathlib

set_option maxRecDepth 8000

namespace Wevis

/-!
Verification of the `wevis` message protocol library.

The Python sources are embedded shallowly:

* `struct` little-endian packing is modelled over `List ℕ` byte lists;
* Python floats are modelled as 64-bit IEEE-754 bit patterns (`ℕ < 2^64`);
* Python strings are modelled as lists of Unicode code points;
* fallible operations return `Except String`.
-/

/-! ### Little-endian byte encoding (Python `struct`, `<` formats) -/

/-- The `k` little-endian bytes of `n` (mod `2^(8*k)`). -/
def natToBytes : ℕ → ℕ → List ℕ
  | 0, _ => []
  | k + 1, n => n % 256 :: natToBytes k (n / 256)

/-- Little-endian value of a byte list. -/
def bytesToNat : List ℕ → ℕ
  | [] => 0
  | b :: bs => b + 256 * bytesToNat bs

/-- The `struct` code `i` (signed 32-bit little-endian), for in-range inputs. -/
def int32ToBytes (i : ℤ) : List ℕ := natToBytes 4 (i.emod (2 ^ 32)).toNat

/-- Decode 4 little-endian bytes as a signed 32-bit integer. -/
def bytesToInt32 (bs : List ℕ) : ℤ :=
  let n := bytesToNat bs
  if n < 2 ^ 31 then (n : ℤ) else (n : ℤ) - 2 ^ 32

/-! ### IEEE-754 bit-level conversions

`struct` codes `f` and `d` convert between Python floats (binary64) and the
4- or 8-byte wire representations.  We model the floats themselves by their
binary64 bit patterns, and the narrowing conversion binary64 → binary32 by
integer arithmetic (round to nearest, ties to even — the C default used by
CPython). -/

/-- Floor of the base-2 logarithm, driven by a fuel counter.  The value is
halved on every step, so fuel equal to the argument (as supplied by
`natLog2`) never runs out. -/
def natLog2Fuel : ℕ → ℕ → ℕ
  | 0, _ => 0
  | fuel + 1, n => if n < 2 then 0 else natLog2Fuel fuel (n / 2) + 1

/-- Floor of the base-2 logarithm (`Nat.log2`, in a form the kernel can
evaluate). -/
def natLog2 (n : ℕ) : ℕ := natLog2Fuel n n

/-- Round `M / 2^shift` to the nearest integer, ties to even. -/
def rshiftRNE (M shift : ℕ) : ℕ :=
  if shift = 0 then M
  else
    let q := M / 2 ^ shift
    let r := M % 2 ^ shift
    let half := 2 ^ (shift - 1)
    if half < r ∨ (r = half ∧ q % 2 = 1) then q + 1 else q

/-- Bit pattern of the IEEE-754 binary value with `mbits` mantissa bits and
`ebits` exponent bits nearest to `(-1)^s * M * 2^e2` (ties to even, overflow
to infinity, gradual underflow to subnormals and zero). -/
def encodeBinary (mbits ebits s : ℕ) (M : ℕ) (e2 : ℤ) : ℕ :=
  if M = 0 then s * 2 ^ (mbits + ebits)
  else
    let bias : ℤ := 2 ^ (ebits - 1) - 1
    let t := natLog2 M
    let re : ℤ := e2 + t
    if 1 - bias ≤ re then
      -- rounds on the normal grid with spacing `2^(re - mbits)`
      let q := if t ≤ mbits then M * 2 ^ (mbits - t) else rshiftRNE M (t - mbits)
      let q' := if q = 2 ^ (mbits + 1) then 2 ^ mbits else q
      let re' := if q = 2 ^ (mbits + 1) then re + 1 else re
      if bias < re' then s * 2 ^ (mbits + ebits) + (2 ^ ebits - 1) * 2 ^ mbits
      else s * 2 ^ (mbits + ebits) + (re' + bias).toNat * 2 ^ mbits + (q' - 2 ^ mbits)
    else
      -- rounds on the subnormal grid with spacing `2^(1 - bias - mbits)`
      let d : ℤ := e2 - (1 - bias - mbits)
      let q := if 0 ≤ d then M * 2 ^ d.toNat else rshiftRNE M (-d).toNat
      if 2 ^ mbits ≤ q then s * 2 ^ (mbits + ebits) + 2 ^ mbits + (q - 2 ^ mbits)
      else s * 2 ^ (mbits + ebits) + q

/-- Binary64 → binary32 narrowing (the conversion done by `struct.pack` with
code `f`), on bit patterns.  NaN payloads are truncated keeping the quiet bit,
as on mainstream hardware; no claim below depends on the NaN payload.  The
result is reduced mod `2^32`: `struct.pack` writes exactly four bytes. -/
def f64ToF32bits (w : ℕ) : ℕ :=
  let s : ℕ := w / 2 ^ 63 % 2
  let e : ℕ := w / 2 ^ 52 % 2 ^ 11
  let m : ℕ := w % 2 ^ 52
  (if e = 2047 then
    if m = 0 then s * 2 ^ 31 + 255 * 2 ^ 23
    else s * 2 ^ 31 + 255 * 2 ^ 23 + 2 ^ 22 + m / 2 ^ 29 % 2 ^ 22
  else
    let M := if e = 0 then m else m + 2 ^ 52
    encodeBinary 23 8 s M ((max e 1 : ℕ) - (1075 : ℤ))) % 2 ^ 32

/-- Binary32 → binary64 widening (the conversion done by `struct.unpack` with
code `f`), on bit patterns.  This conversion is exact. -/
def f32ToF64bits (w : ℕ) : ℕ :=
  let s := w / 2 ^ 31 % 2
  let e := w / 2 ^ 23 % 2 ^ 8
  let m := w % 2 ^ 23
  if e = 255 then s * 2 ^ 63 + 2047 * 2 ^ 52 + m * 2 ^ 29
  else if e = 0 then
    if m = 0 then s * 2 ^ 63
    else
      let t := natLog2 m
      s * 2 ^ 63 + (t + 874) * 2 ^ 52 + (m - 2 ^ t) * 2 ^ (52 - t)
  else s * 2 ^ 63 + (e + 896) * 2 ^ 52 + m * 2 ^ 29

/-- Bit pattern of the binary64 nearest to the integer `i`
(Python `float(i)`, and the implicit conversion of `struct` code `d`). -/
def f64OfInt (i : ℤ) : ℕ :=
  encodeBinary 52 11 (if i < 0 then 1 else 0) i.natAbs 0

/-! ### UTF-8 (Python `str.encode` / `bytes.decode`, strict mode) -/

/-- Is `c` a Unicode scalar value (encodable by Python `str.encode`)?
Python raises `UnicodeEncodeError` on surrogates. -/
def scalarOk (c : ℕ) : Bool := c < 0x110000 && !(0xD800 ≤ c && c < 0xE000)

/-- UTF-8 bytes of one code point. -/
def utf8Char (c : ℕ) : List ℕ :=
  if c < 0x80 then [c]
  else if c < 0x800 then [0xC0 + c / 64, 0x80 + c % 64]
  else if c < 0x10000 then [0xE0 + c / 4096, 0x80 + c / 64 % 64, 0x80 + c % 64]
  else [0xF0 + c / 0x40000, 0x80 + c / 4096 % 64, 0x80 + c / 64 % 64, 0x80 + c % 64]

/-- UTF-8 encoding of a string (list of code points). -/
def utf8Encode (cs : List ℕ) : List ℕ := (cs.map utf8Char).flatten

/-- Is `b` a UTF-8 continuation byte? -/
def isCont (b : ℕ) : Bool := 0x80 ≤ b && b < 0xC0

/-- Strict UTF-8 decoding (Python `bytes.decode("utf-8")`): rejects truncated
sequences, stray continuation bytes, overlong forms, surrogates and values
above `0x10FFFF`.  Recursion is driven by a fuel counter; every step consumes
at least one byte, so fuel equal to the byte count (as supplied by
`utf8Decode` below) never runs out. -/
def utf8DecodeFuel : ℕ → List ℕ → Option (List ℕ)
  | _, [] => some []
  | 0, _ :: _ => none
  | fuel + 1, b :: bs =>
    if b < 0x80 then (utf8DecodeFuel fuel bs).map (b :: ·)
    else if 0xC2 ≤ b && b < 0xE0 then
      match bs with
      | b1 :: bs1 =>
        if isCont b1 then
          (utf8DecodeFuel fuel bs1).map (((b - 0xC0) * 64 + (b1 - 0x80)) :: ·)
        else none
      | [] => none
    else if 0xE0 ≤ b && b < 0xF0 then
      match bs with
      | b1 :: b2 :: bs2 =>
        if isCont b1 && isCont b2
            && !(b = 0xE0 && b1 < 0xA0) && !(b = 0xED && 0xA0 ≤ b1) then
          (utf8DecodeFuel fuel bs2).map
            (((b - 0xE0) * 4096 + (b1 - 0x80) * 64 + (b2 - 0x80)) :: ·)
        else none
      | _ => none
    else if 0xF0 ≤ b && b < 0xF5 then
      match bs with
      | b1 :: b2 :: b3 :: bs3 =>
        if isCont b1 && isCont b2 && isCont b3
            && !(b = 0xF0 && b1 < 0x90) && !(b = 0xF4 && 0x90 ≤ b1) then
          (utf8DecodeFuel fuel bs3).map
            (((b - 0xF0) * 0x40000 + (b1 - 0x80) * 4096 + (b2 - 0x80) * 64 + (b3 - 0x80)) :: ·)
        else none
      | _ => none
    else none

/-- Strict UTF-8 decoding of a byte list. -/
def utf8Decode (bs : List ℕ) : Option (List ℕ) := utf8DecodeFuel bs.length bs

/-! ### Argument kinds and Python values

`MessageDefinition` supports the argument types `int`, `float`, `str`,
`bytes`, `"?f"` (float32 vector) and `"?d"` (float64 vector). -/

inductive Kind where
  | kInt | kFloat | kStr | kBytes | kF32v | kF64v
deriving DecidableEq, Repr

/-- The Python values that can sit in a message argument slot.  Floats are
64-bit IEEE-754 bit patterns; strings are lists of code points. -/
inductive PyVal where
  | pNone
  | pInt (i : ℤ)
  | pFloat (w : ℕ)
  | pStr (cs : List ℕ)
  | pBytes (bs : List ℕ)
  | pList (xs : List PyVal)

/-- Python `len`: defined for sized values only (`TypeError` otherwise). -/
def pyLen : PyVal → Except String ℕ
  | .pStr cs => .ok cs.length
  | .pBytes bs => .ok bs.length
  | .pList xs => .ok xs.length
  | _ => .error "TypeError: object has no length"

/-! ### Message definitions and the registry

`MessageDefinition.__init__` validates the name, sorts the arguments by name,
assigns the next id and registers the definition in the class-level tables
`_names`, `_ids` and `_last_id`. -/

structure MessageDefinition where
  id : ℕ
  name : String
  /-- The `(name, kind)` pairs, sorted by name (insertion order of `_arguments`). -/
  args : List (String × Kind)
deriving DecidableEq, Repr

/-- The class-level registration state of `MessageDefinition`. -/
structure Registry where
  names : List (String × MessageDefinition)
  ids : List (ℕ × MessageDefinition)
  lastId : ℕ
deriving DecidableEq, Repr

def emptyRegistry : Registry := ⟨[], [], 0⟩

/-- The `NAME` regex: `^[a-zA-Z_]\w*$` (ASCII fragment). -/
def nameOk (s : String) : Bool :=
  match s.data with
  | [] => false
  | c :: cs => (c.isAlpha || c == '_') && cs.all (fun d => d.isAlphanum || d == '_')

/-- The `ARGS` regex: `^[a-zA-Z]\w*$` (ASCII fragment). -/
def argNameOk (s : String) : Bool :=
  match s.data with
  | [] => false
  | c :: cs => c.isAlpha && cs.all (fun d => d.isAlphanum || d == '_')

/-- Lexicographic code-point comparison of strings (Python string `<=`). -/
def strLeChars : List Char → List Char → Bool
  | [], _ => true
  | _ :: _, [] => false
  | a :: as, b :: bs =>
    if a.toNat < b.toNat then true
    else if b.toNat < a.toNat then false
    else strLeChars as bs

def strLe (a b : String) : Bool := strLeChars a.data b.data

def insertArg (p : String × Kind) : List (String × Kind) → List (String × Kind)
  | [] => [p]
  | q :: qs => if strLe p.1 q.1 then p :: q :: qs else q :: insertArg p qs

/-- The `sorted(_arguments.items(), key=lambda x: x[0])` (stable insertion sort). -/
def sortArgs : List (String × Kind) → List (String × Kind)
  | [] => []
  | p :: ps => insertArg p (sortArgs ps)

/-- The `MessageDefinition.__init__`: validate, sort, assign the next id and
register.  Keyword arguments cannot repeat in Python, so `args` is assumed
duplicate-free by callers. -/
def defineMessage (reg : Registry) (name : String) (args : List (String × Kind)) :
    Except String Registry :=
  if !nameOk name then
    .error "ValueError: bad message name"
  else if (reg.names.lookup name).isSome then
    .error "ValueError: message already defined"
  else if !(sortArgs args).all (fun a => argNameOk a.1) then
    .error "ValueError: bad argument name"
  else
    let d : MessageDefinition := ⟨reg.lastId + 1, name, sortArgs args⟩
    .ok ⟨(name, d) :: reg.names, (d.id, d) :: reg.ids, reg.lastId + 1⟩

/-- The `MessageDefinition.fetch(name)`. -/
def fetchDefinition (reg : Registry) (name : String) : Option MessageDefinition :=
  reg.names.lookup name

/-- The six built-in definitions registered at the end of `wevis/__init__.py`,
in source order and with the source keyword-argument order. -/
def builtinRegistry : Except String Registry := do
  let r ← defineMessage emptyRegistry "_ping" []
  let r ← defineMessage r "_pong" []
  let r ← defineMessage r "_welcome" [("salt", .kStr)]
  let r ← defineMessage r "_login"
      [("username", .kStr), ("password", .kStr), ("major", .kInt), ("minor", .kInt),
       ("revision", .kInt)]
  let r ← defineMessage r "_loginReject" [("reason", .kStr)]
  defineMessage r "_loginAccept" []

/-- The registry produced by module initialisation. -/
def sixRegistry : Registry := (builtinRegistry.toOption).getD emptyRegistry

/-! ### Messages

`Message.__init__` stores, for every argument of the definition, the supplied
initial value or `None`.  `Message.set` coerces each supplied value with the
declared type (`int(v)`, `float(v)`, `str(v)`, `bytes(v)`, or an elementwise
`[float(x) for x in v]` for the vector kinds). -/

structure Message where
  definition : MessageDefinition
  values : List (String × PyVal)

/-- The `Message.__init__` with a `MessageDefinition` (the `type(_name) ==
MessageDefinition` branch): every argument gets `_values.get(name, None)`. -/
def mkMessage (d : MessageDefinition) (initial : List (String × PyVal)) : Message :=
  ⟨d, d.args.map (fun a => (a.1, (initial.lookup a.1).getD .pNone))⟩

/-- The `Message.get` for a single name (`KeyError` modelled as `none`). -/
def msgGet (m : Message) (name : String) : Option PyVal :=
  m.values.lookup name

/-- Python `int(value)`.  Decimal string parsing is modelled for plain
optionally-signed digit strings; the exotic forms (whitespace, underscores)
are not exercised by any claim. -/
def pyIntOfStr (cs : List ℕ) : Except String ℤ :=
  let digits : List ℕ → Option ℕ := fun ds =>
    if ds = [] then none
    else ds.foldl (fun acc d => acc.bind (fun a =>
      if 48 ≤ d ∧ d ≤ 57 then some (a * 10 + (d - 48)) else none)) (some 0)
  match cs with
  | 43 :: rest => match digits rest with
    | some v => .ok (v : ℤ)
    | none => .error "ValueError: invalid literal for int()"
  | 45 :: rest => match digits rest with
    | some v => .ok (-(v : ℤ))
    | none => .error "ValueError: invalid literal for int()"
  | _ => match digits cs with
    | some v => .ok (v : ℤ)
    | none => .error "ValueError: invalid literal for int()"

/-- Python `int(value)`: identity on ints, truncation towards zero on floats
(error on nan and inf), decimal parsing on strings, `TypeError` otherwise.
There is no truncation into the 32-bit range. -/
def pyIntOf : PyVal → Except String ℤ
  | .pInt i => .ok i
  | .pFloat w =>
    let s := w / 2 ^ 63 % 2
    let e := w / 2 ^ 52 % 2 ^ 11
    let m := w % 2 ^ 52
    if e = 2047 then .error "OverflowError or ValueError: nan or inf to int"
    else
      let M := if e = 0 then m else m + 2 ^ 52
      let v : ℕ := if e ≤ 1075 then M / 2 ^ (1075 - e) else M * 2 ^ (e - 1075)
      .ok (if s = 1 then -(v : ℤ) else (v : ℤ))
  | .pStr cs => pyIntOfStr cs
  | _ => .error "TypeError: int() argument"

/-- Python `float(value)`: identity on floats, exact-rounded conversion on
ints.  Decimal string parsing is not modelled (no claim exercises it). -/
def pyFloatOf : PyVal → Except String ℕ
  | .pFloat w => .ok w
  | .pInt i => .ok (f64OfInt i)
  | _ => .error "TypeError or unmodelled: float() argument"

/-- Python `str(value)`: identity on strings, decimal repr of ints.  The repr
of other values is not modelled (no claim exercises it). -/
def pyStrOf : PyVal → Except String (List ℕ)
  | .pStr cs => .ok cs
  | .pInt i => .ok ((toString i).data.map Char.toNat)
  | _ => .error "unmodelled: str() of this value"

/-- Conversion of a list of Python ints to bytes (`bytes(list)`). -/
def bytesFromList : List PyVal → Except String (List ℕ)
  | [] => .ok []
  | .pInt i :: xs =>
    if 0 ≤ i ∧ i < 256 then (bytesFromList xs).map (i.toNat :: ·)
    else .error "ValueError: bytes must be in range(0, 256)"
  | _ :: _ => .error "TypeError: an integer is required"

/-- Python `bytes(value)`. -/
def pyBytesOf : PyVal → Except String (List ℕ)
  | .pBytes bs => .ok bs
  | .pInt i => if 0 ≤ i then .ok (List.replicate i.toNat 0)
               else .error "ValueError: negative count"
  | .pList xs => bytesFromList xs
  | _ => .error "TypeError: cannot convert to bytes"

/-- The comprehension `[float(x) for x in value]`. -/
def coerceFloatList : List PyVal → Except String (List PyVal)
  | [] => .ok []
  | x :: xs => do
    let w ← pyFloatOf x
    let rest ← coerceFloatList xs
    .ok (.pFloat w :: rest)

/-- One `kind(value)` coercion from `Message.set`; for the vector kinds the
source evaluates `[float(x) for x in value]`.  Iteration over strings is not
modelled (no claim exercises it). -/
def coerceKind (k : Kind) (v : PyVal) : Except String PyVal :=
  match k with
  | .kInt => (pyIntOf v).map .pInt
  | .kFloat => (pyFloatOf v).map .pFloat
  | .kStr => (pyStrOf v).map .pStr
  | .kBytes => (pyBytesOf v).map .pBytes
  | .kF32v | .kF64v =>
    match v with
    | .pList xs => (coerceFloatList xs).map .pList
    | .pBytes bs => (coerceFloatList (bs.map (fun b => .pInt (b : ℤ)))).map .pList
    | _ => .error "TypeError: not iterable (or iteration not modelled)"

/-- Dictionary assignment `self._argument_values[name] = v`. -/
def setValue (values : List (String × PyVal)) (name : String) (v : PyVal) :
    List (String × PyVal) :=
  if (values.lookup name).isSome then
    values.map (fun p => if p.1 = name then (p.1, v) else p)
  else values ++ [(name, v)]

/-- The `Message.set(**kwargs)`: look up each declared type (`KeyError` if the
name is not an argument), coerce, store. -/
def msgSet (m : Message) (updates : List (String × PyVal)) : Except String Message := do
  let vals ← updates.foldlM (fun acc (p : String × PyVal) =>
    match m.definition.args.lookup p.1 with
    | none => .error "KeyError: not an argument of this message"
    | some k => do
      let v ← coerceKind k p.2
      .ok (setValue acc p.1 v)) m.values
  .ok ⟨m.definition, vals⟩

/-! ### Packing (`MessageDefinition.pack`)

The source first walks `_vectors` (the variable-size arguments, in sorted
order), replacing each fixed-slot entry by the payload length and collecting
the payload; it then packs the fixed part with `_pack_code` and finally the
variable part.  `str` payloads are UTF-8 encoded but packed with the format
`{len(v)}s`, which pads or truncates the encoding to the **character** count
of the string. -/

/-- The `struct` format `{n}s`: truncate or zero-pad to exactly `n` bytes. -/
def padTrunc (n : ℕ) (bs : List ℕ) : List ℕ :=
  bs.take n ++ List.replicate (n - bs.length) 0

/-- The elements of a vector value as binary64 bit patterns (`struct` accepts
floats and ints for the `f` and `d` codes). -/
def pyFloatList : List PyVal → Except String (List ℕ)
  | [] => .ok []
  | x :: xs => do
    let w ← pyFloatOf x
    let ws ← pyFloatList xs
    .ok (w :: ws)

/-- One entry of the `_vectors` loop: the length written into the fixed slot
and the payload bytes contributed to the variable part. -/
structure VecPart where
  n : ℕ
  payload : List ℕ

/-- Length and payload of one variable-size argument. -/
def packVector (k : Kind) (v : PyVal) : Except String VecPart := do
  let n ← pyLen v
  match k, v with
  | .kStr, .pStr cs =>
    if cs.all scalarOk then .ok ⟨n, padTrunc n (utf8Encode cs)⟩
    else .error "UnicodeEncodeError: surrogates not allowed"
  | .kBytes, .pBytes bs => .ok ⟨n, padTrunc n bs⟩
  | .kF32v, .pList xs => do
    let ws ← pyFloatList xs
    .ok ⟨n, (ws.map (fun w => natToBytes 4 (f64ToF32bits w))).flatten⟩
  | .kF64v, .pList xs => do
    let ws ← pyFloatList xs
    .ok ⟨n, (ws.map (natToBytes 8)).flatten⟩
  | _, _ => .error "struct.error or AttributeError: bad vector value"

/-- Dictionary read `message.get(name)`, raising `KeyError` when absent. -/
def getValue (get : String → Option PyVal) (name : String) : Except String PyVal :=
  match get name with
  | some v => .ok v
  | none => .error "KeyError: missing argument value"

/-- The `_vectors` loop over the variable-size arguments in sorted order. -/
def packVectors : List (String × Kind) → (String → Option PyVal) →
    Except String (List VecPart)
  | [], _ => .ok []
  | (name, k) :: args, get =>
    match k with
    | .kInt | .kFloat => packVectors args get
    | _ => do
      let v ← getValue get name
      let p ← packVector k v
      let ps ← packVectors args get
      .ok (p :: ps)

/-- The `struct.pack(_pack_code, *fixed)`: 4-byte signed ints, 8-byte floats, and
the 4-byte unsigned placeholder length of each variable-size argument. -/
def packFixed : List (String × Kind) → (String → Option PyVal) → List VecPart →
    Except String (List ℕ)
  | [], _, [] => .ok []
  | [], _, _ :: _ => .error "struct.error: argument count mismatch"
  | (name, k) :: args, get, vps =>
    match k with
    | .kInt => do
      let v ← getValue get name
      match v with
      | .pInt i =>
        if -(2 ^ 31) ≤ i ∧ i < 2 ^ 31 then do
          let rest ← packFixed args get vps
          .ok (int32ToBytes i ++ rest)
        else .error "struct.error: int out of 32-bit range"
      | _ => .error "struct.error: required argument is not an integer"
    | .kFloat => do
      let v ← getValue get name
      match v with
      | .pFloat w => do
        let rest ← packFixed args get vps
        .ok (natToBytes 8 w ++ rest)
      | .pInt i => do
        let rest ← packFixed args get vps
        .ok (natToBytes 8 (f64OfInt i) ++ rest)
      | _ => .error "struct.error: required argument is not a float"
    | _ =>
      match vps with
      | vp :: vps2 =>
        if vp.n < 2 ^ 32 then do
          let rest ← packFixed args get vps2
          .ok (natToBytes 4 vp.n ++ rest)
        else .error "struct.error: length does not fit in 32 bits"
      | [] => .error "struct.error: argument count mismatch"

/-- The `MessageDefinition.pack` (also `Message.pack`). -/
def packMessage (m : Message) : Except String (List ℕ) := do
  if m.definition.id < 2 ^ 32 then
    let vps ← packVectors m.definition.args (fun n => m.values.lookup n)
    let fixed ← packFixed m.definition.args (fun n => m.values.lookup n) vps
    .ok (natToBytes 4 m.definition.id ++ fixed ++ (vps.map VecPart.payload).flatten)
  else .error "struct.error: id does not fit in 32 bits"

/-! ### Unpacking (`MessageDefinition.unpack`)

The source reads the leading id, looks the definition up in `_ids`, unpacks
the fixed part with `_pack_code` (which must match the slice exactly), builds
a vector format string from the extracted lengths and unpacks the remaining
bytes with it (again an exact match), and finally stores everything in a
fresh message via `Message.set`. -/

inductive FixedVal where
  | fInt (i : ℤ)
  | fFloat (w : ℕ)
  | fLen (n : ℕ)

/-- The `struct.unpack(_pack_code, data[4:4+size])`, consuming the fixed bytes
argument by argument and returning the remaining (variable part) bytes. -/
def parseFixed : List (String × Kind) → List ℕ → Except String (List FixedVal × List ℕ)
  | [], rest => .ok ([], rest)
  | (_, k) :: args, data =>
    match k with
    | .kInt =>
      if 4 ≤ data.length then do
        let (fs, rest) ← parseFixed args (data.drop 4)
        .ok (.fInt (bytesToInt32 (data.take 4)) :: fs, rest)
      else .error "struct.error: unpack requires more data"
    | .kFloat =>
      if 8 ≤ data.length then do
        let (fs, rest) ← parseFixed args (data.drop 8)
        .ok (.fFloat (bytesToNat (data.take 8)) :: fs, rest)
      else .error "struct.error: unpack requires more data"
    | _ =>
      if 4 ≤ data.length then do
        let (fs, rest) ← parseFixed args (data.drop 4)
        .ok (.fLen (bytesToNat (data.take 4)) :: fs, rest)
      else .error "struct.error: unpack requires more data"

/-- The `n` consecutive 4-byte floats, widened to binary64 (format `{n}f`). -/
def parseF32s : ℕ → List ℕ → Except String (List PyVal × List ℕ)
  | 0, bs => .ok ([], bs)
  | n + 1, bs =>
    if 4 ≤ bs.length then do
      let (vs, rest) ← parseF32s n (bs.drop 4)
      .ok (.pFloat (f32ToF64bits (bytesToNat (bs.take 4))) :: vs, rest)
    else .error "struct.error: unpack requires more data"

/-- The `n` consecutive 8-byte floats (format `{n}d`). -/
def parseF64s : ℕ → List ℕ → Except String (List PyVal × List ℕ)
  | 0, bs => .ok ([], bs)
  | n + 1, bs =>
    if 8 ≤ bs.length then do
      let (vs, rest) ← parseF64s n (bs.drop 8)
      .ok (.pFloat (bytesToNat (bs.take 8)) :: vs, rest)
    else .error "struct.error: unpack requires more data"

/-- Assemble the `args` dictionary passed to `message.set(**args)`: fixed
values for `int` and `float` arguments, decoded or sliced payloads for the
variable-size ones.  The variable part must be consumed exactly (the source
unpacks it with a single `struct.unpack` whose format fixes the total size). -/
def buildArgs : List (String × Kind) → List FixedVal → List ℕ →
    Except String (List (String × PyVal))
  | [], [], [] => .ok []
  | [], [], _ :: _ => .error "struct.error: unpack requires exact buffer"
  | [], _ :: _, _ => .error "struct.error: argument count mismatch"
  | _ :: _, [], _ => .error "struct.error: argument count mismatch"
  | (name, k) :: args, fv :: fvs, var =>
    match k, fv with
    | .kInt, .fInt i => (buildArgs args fvs var).map ((name, .pInt i) :: ·)
    | .kFloat, .fFloat w => (buildArgs args fvs var).map ((name, .pFloat w) :: ·)
    | .kStr, .fLen n =>
      if n ≤ var.length then
        match utf8Decode (var.take n) with
        | some cs => (buildArgs args fvs (var.drop n)).map ((name, .pStr cs) :: ·)
        | none => .error "UnicodeDecodeError"
      else .error "struct.error: unpack requires more data"
    | .kBytes, .fLen n =>
      if n ≤ var.length then
        (buildArgs args fvs (var.drop n)).map ((name, .pBytes (var.take n)) :: ·)
      else .error "struct.error: unpack requires more data"
    | .kF32v, .fLen n => do
      let (vs, rest) ← parseF32s n var
      (buildArgs args fvs rest).map ((name, .pList vs) :: ·)
    | .kF64v, .fLen n => do
      let (vs, rest) ← parseF64s n var
      (buildArgs args fvs rest).map ((name, .pList vs) :: ·)
    | _, _ => .error "internal: fixed value and kind misaligned"

/-- The `MessageDefinition.unpack` (also `Message.unpack`). -/
def unpackMessage (reg : Registry) (data : List ℕ) : Except String Message :=
  if 4 ≤ data.length then
    match reg.ids.lookup (bytesToNat (data.take 4)) with
    | none => .error "KeyError: unknown message id"
    | some d => do
      let (fvs, var) ← parseFixed d.args (data.drop 4)
      let args ← buildArgs d.args fvs var
      msgSet (mkMessage d []) args
  else .error "struct.error: unpack requires a buffer of 4 bytes"

/-! ### MessageReader (`_message.py`, non-blocking frame reassembly)

`read` keeps a buffer, a byte counter and an optional frame size.  The
network is modelled adversarially: every `recv` call is resolved by a
`Chunk` decision (would-block, or deliver some bytes of the remaining
stream). -/

structure RState where
  read : ℕ
  size : Option ℕ
  buff : List ℕ
deriving DecidableEq, Repr

def initReader : RState := ⟨0, none, []⟩

/-- Python truthiness of `self._size` (`None` and `0` are both falsy). -/
def truthySize : Option ℕ → Bool
  | none => false
  | some n => n != 0

/-- One adversarial scheduling decision for a non-blocking `recv`. -/
inductive Chunk where
  | block
  | take (n : ℕ)
deriving DecidableEq, Repr

/-- The `conn.recv(req)` under decision `c`: `none` models `EWOULDBLOCK`; a
`take n` delivers `min (n+1) req` bytes of the remaining stream (at least
one when the stream is non-empty and `req > 0`); an empty result models a
peer that closed after sending the whole stream. -/
def recvChunk (stream : List ℕ) (req : ℕ) : Chunk → Option (List ℕ × List ℕ)
  | .block => none
  | .take n =>
    let k := min (min (n + 1) req) stream.length
    some (stream.take k, stream.drop k)

/-- The second half of `MessageReader.read` (the `if self._size:` block). -/
def readBody (reg : Registry) (s : RState) (stream : List ℕ) (cs : List Chunk) :
    Except String (Option Message × RState × List ℕ × List Chunk) :=
  if truthySize s.size then
    let L := s.size.getD 0
    match cs with
    | [] => .ok (none, s, stream, [])
    | c :: cs' =>
      match recvChunk stream (L - s.read) c with
      | none => .ok (none, s, stream, cs')
      | some (d, stream') =>
        let buff := s.buff ++ d
        let read := buff.length
        if read = 0 then .error "SocketClosedError: socket closed unexpectedly"
        else if read = L then do
          let m ← unpackMessage reg buff
          .ok (some m, initReader, stream', cs')
        else .ok (none, ⟨read, s.size, buff⟩, stream', cs')
  else .ok (none, s, stream, cs)

/-- The `MessageReader.read`: the length-reading block (`if not self._size:`)
followed by the body-reading block, in one call.  Each recv consumes one
chunk decision; a would-block returns `None` (here `none`); a zero-byte
result raises `SocketClosedError` only when it leaves the buffer empty. -/
def readOnce (reg : Registry) (s : RState) (stream : List ℕ) (cs : List Chunk) :
    Except String (Option Message × RState × List ℕ × List Chunk) :=
  if truthySize s.size then readBody reg s stream cs
  else
    match cs with
    | [] => .ok (none, s, stream, [])
    | c :: cs' =>
      match recvChunk stream (4 - s.read) c with
      | none => .ok (none, s, stream, cs')
      | some (d, stream') =>
        let buff := s.buff ++ d
        let read := buff.length
        if read = 0 then .error "SocketClosedError: socket closed unexpectedly"
        else
          let s' := if read = 4 then (⟨0, some (bytesToNat buff), []⟩ : RState)
                    else (⟨read, s.size, buff⟩ : RState)
          readBody reg s' stream' cs'

/-- Repeated `read()` calls until the chunk plan (or the fuel) runs out,
collecting the returned messages. -/
def runReader (reg : Registry) : ℕ → RState → List ℕ → List Chunk →
    Except String (List Message × RState × List ℕ)
  | 0, s, stream, _ => .ok ([], s, stream)
  | _ + 1, s, stream, [] => .ok ([], s, stream)
  | fuel + 1, s, stream, c :: cs => do
    let (om, s', stream', cs') ← readOnce reg s stream (c :: cs)
    let (ms, s'', stream'') ← runReader reg fuel s' stream' cs'
    .ok ((match om with | some m => [m] | none => []) ++ ms, s'', stream'')

/-! ### The Client constructor and handshake (`_client.py`)

`Client.__init__` evaluates `wevis.logging_level` and `wevis.default_port`;
the module defines `_LOGGING_LEVEL` and `_DEFAULT_PORT` instead, so the
attribute lookups are modelled against the module attribute table. -/

/-- The module-level names bound in `wevis/__init__.py` after import
(`sys` is deleted at the end of the module). -/
def wevisModuleAttrs : List String :=
  ["__version__", "_DEFAULT_PORT", "_LOGGING_LEVEL", "MAX_CONNECTIONS_PER_USER",
   "SSLEEP_ROOM", "SSLEEP_MANAGER", "SSLEEP_LISTENER", "SSLEEP_LAUNCH",
   "SSLEEP_SERVER", "SSLEEP_SHUTDOWN", "CSLEEP_RECEIVE_BLOCKING", "CSLEEP_RUN",
   "CSLEEP_START_BLOCKING", "SLEEP_READ_BLOCKING_INTERNAL", "PING_INTERVAL",
   "PING_TIMEOUT", "LOGIN_TIMEOUT", "encrypt", "set_logging_level",
   "DefinitionList", "Message", "MessageDefinition", "MessageReader",
   "MessageWriter", "SocketClosedError", "User", "Room", "Server", "Client"]

/-- The `wevis._DEFAULT_PORT`. -/
def wevisDefaultPort : ℕ := 12121

/-- The `wevis.MAX_CONNECTIONS_PER_USER`. -/
def wevisMaxConnectionsPerUser : ℤ := 1

/-- The `Client.PRE_RUN`. -/
def clientPRE_RUN : ℕ := 0

structure ClientState where
  status : ℕ
  version : List ℤ
  username : String
  password : String
  host : String
  port : ℕ
deriving DecidableEq, Repr

/-- The `Client.__init__`.  `hostname` stands for `socket.gethostname()`.  The
constructor sets the status, builds the logger, and then evaluates
`wevis.logging_level`; later it would evaluate `wevis.default_port` when no
(or a falsy) port is given. -/
def clientInit (version : List ℤ) (username password : String)
    (host : Option String) (port : Option ℕ) (hostname : String) :
    Except String ClientState :=
  let status := clientPRE_RUN
  if "logging_level" ∈ wevisModuleAttrs then
    if version.length ≠ 3 then .error "ValueError: Version must be three integers."
    else
      let host' := match host with
        | some h => if h ≠ "" then h else hostname
        | none => hostname
      match port with
      | some p =>
        if p ≠ 0 then .ok ⟨status, version, username, password, host', p⟩
        else if "default_port" ∈ wevisModuleAttrs then
          .ok ⟨status, version, username, password, host', wevisDefaultPort⟩
        else .error "AttributeError: module wevis has no attribute default_port"
      | none =>
        if "default_port" ∈ wevisModuleAttrs then
          .ok ⟨status, version, username, password, host', wevisDefaultPort⟩
        else .error "AttributeError: module wevis has no attribute default_port"
  else .error "AttributeError: module wevis has no attribute logging_level"

/-- The attribute names defined by `class MessageReader` in `_message.py`. -/
def messageReaderAttrNames : List String :=
  ["__init__", "read", "_read_blocking_internal"]

/-- The `Client._receive_blocking` (used by `_connect` for `_welcome` and for
`_loginAccept`/`_loginReject`): evaluates `self._reader.read_blocking()`. -/
def clientReceiveBlockingInternal (expected : List String) :
    Except String Message :=
  if "read_blocking" ∈ messageReaderAttrNames then
    -- Unreachable for the source as written: MessageReader defines
    -- `_read_blocking_internal`, not `read_blocking`.
    .error (String.join (expected.map id) ++ " not modelled")
  else .error "AttributeError: MessageReader object has no attribute read_blocking"

/-- The `Client._connect` after the TCP connect and reader/writer construction:
the handshake begins with `self._receive_blocking("_welcome")`; sending
`_login` and receiving the login result are reached only if that call
returns. -/
def clientConnect : Except String Message :=
  clientReceiveBlockingInternal ["_welcome"]

/-! ### The server login state (`Connection.tick_login` in `_server.py`) -/

inductive LoginOutcome where
  | pending
  | closed (reason : String)
  | rejectedAndClosed (reason : String) (closeReason : String)
  | accepted (user : String)
deriving Repr

/-- The `Connection.tick_login`.  `readResult` models `self._reader.read()`
(an exception, a message, or nothing), `timedOut` the deadline check
`time.time() > self._ping_time`, `versionValidator` and `userValidator` the
two server callbacks (the latter returning a user or a falsy value), and
`countOf`/`maxConn` the manager count lookup and
`wevis.MAX_CONNECTIONS_PER_USER`. -/
def tickLogin (versionValidator : PyVal → PyVal → PyVal → Bool)
    (userValidator : PyVal → PyVal → String → Option String)
    (countOf : String → ℤ) (maxConn : ℤ) (salt : String)
    (readResult : Except String (Option Message)) (timedOut : Bool) :
    Except String LoginOutcome :=
  match readResult with
  | .error e => .ok (.closed e)
  | .ok none =>
    if timedOut then .ok (.closed "Login time out") else .ok .pending
  | .ok (some message) =>
    if message.definition.name ≠ "_login" then
      .ok (.rejectedAndClosed "Unexpected message."
            "Rejected login: unexpected message.")
    else
      match msgGet message "major", msgGet message "minor",
          msgGet message "revision" with
      | some major, some minor, some revision =>
        if !versionValidator major minor revision then
          .ok (.rejectedAndClosed "Client requires update."
                "Rejected login: client requires update.")
        else
          match msgGet message "username", msgGet message "password" with
          | some username, some password =>
            match userValidator username password salt with
            | none =>
              .ok (.rejectedAndClosed "Invalid credentials."
                    "Rejected login: invalid credentials.")
            | some user =>
              if maxConn ≤ countOf user then
                .ok (.rejectedAndClosed
                      "Maximum number of connections per user reached."
                      "Rejected login: max connections per user reached.")
              else .ok (.accepted user)
          | _, _ => .error "KeyError: missing login fields"
      | _, _, _ => .error "KeyError: missing login fields"

/-! ### Connection lifecycle and per-user counts (`Manager`, `Connection`)

The counting-relevant behaviour of the server: connections are admitted,
ticked (initial → awaiting-login → normal) and closed; `user_enter`
increments the per-user count when a login is accepted; `close` calls
`user_exit` exactly when a user had been adopted.  `enters`/`exits` record
how often the two manager hooks ran for a connection.  The manager also
removes closed connections from its list; removal does not touch the counts
(close is idempotent), so the model keeps dead entries in place. -/

structure Conn where
  alive : Bool
  saltSent : Bool
  user : Option String
  enters : ℕ
  exits : ℕ
deriving DecidableEq, Repr

def freshConn : Conn := ⟨true, false, none, 0, 0⟩

structure ManagerState where
  conns : List Conn
  counts : List (String × ℤ)
deriving DecidableEq, Repr

def emptyManager : ManagerState := ⟨[], []⟩

/-- The `Manager.user_count`: `self._user_counts.get(user.name, 0)`. -/
def userCount (counts : List (String × ℤ)) (u : String) : ℤ :=
  (counts.lookup u).getD 0

/-- The count update of `Manager.user_enter`: `+= 1`, or `= 1` on
`KeyError`. -/
def userEnterCounts (counts : List (String × ℤ)) (u : String) :
    List (String × ℤ) :=
  match counts.lookup u with
  | some v => counts.map (fun p => if p.1 = u then (p.1, v + 1) else p)
  | none => counts ++ [(u, 1)]

/-- The count update of `Manager.user_exit`: `-= 1` (`KeyError` if the key
is absent). -/
def userExitCounts (counts : List (String × ℤ)) (u : String) :
    Except String (List (String × ℤ)) :=
  match counts.lookup u with
  | some v => .ok (counts.map (fun p => if p.1 = u then (p.1, v - 1) else p))
  | none => .error "KeyError: user not in count table"

/-- The `Connection.close` for connection `i`: a no-op when already closed;
otherwise calls `user_exit` iff a user had been adopted, then clears
`alive` and `user`. -/
def closeConn (sys : ManagerState) (i : ℕ) : Except String ManagerState :=
  match sys.conns.get? i with
  | none => .ok sys
  | some c =>
    if !c.alive then .ok sys
    else
      match c.user with
      | some u => do
        let counts' ← userExitCounts sys.counts u
        .ok ⟨sys.conns.set i
              { c with alive := false, user := none, exits := c.exits + 1 },
             counts'⟩
      | none => .ok ⟨sys.conns.set i { c with alive := false }, sys.counts⟩

/-- The socket, clock and callback inputs of one `tick` call. -/
structure TickEnv where
  versionValidator : PyVal → PyVal → PyVal → Bool
  userValidator : PyVal → PyVal → String → Option String
  salt : String
  login : Except String (Option Message)
  timedOut : Bool
  /-- The `tick_normal` reached one of its close paths (read error or ping
  timeout with a ping already pending). -/
  normalClose : Bool

/-- The `Connection.tick` for connection `i` (dispatch on state), including the
manager bookkeeping done on the accept path (`self._user = user;
self._manager.user_enter(self)`). -/
def tickConn (maxConn : ℤ) (sys : ManagerState) (i : ℕ) (env : TickEnv) :
    Except String ManagerState :=
  match sys.conns.get? i with
  | none => .ok sys
  | some c =>
    if !c.alive then .ok sys
    else
      match c.user with
      | some _ =>
        if env.normalClose then closeConn sys i else .ok sys
      | none =>
        if c.saltSent then do
          let outcome ← tickLogin env.versionValidator env.userValidator
            (userCount sys.counts) maxConn env.salt env.login env.timedOut
          match outcome with
          | .pending => .ok sys
          | .closed _ => closeConn sys i
          | .rejectedAndClosed _ _ => closeConn sys i
          | .accepted u =>
            .ok ⟨sys.conns.set i { c with user := some u, enters := c.enters + 1 },
                 userEnterCounts sys.counts u⟩
        else
          -- tick_initial: send `_welcome`, record the salt and the deadline
          .ok ⟨sys.conns.set i { c with saltSent := true }, sys.counts⟩

/-- One manager-level event: admit a connection, tick one, or close one. -/
inductive SysOp where
  | accept
  | tick (i : ℕ) (env : TickEnv)
  | close (i : ℕ)

def applySysOp (maxConn : ℤ) (sys : ManagerState) : SysOp → Except String ManagerState
  | .accept => .ok ⟨sys.conns ++ [freshConn], sys.counts⟩
  | .tick i env => tickConn maxConn sys i env
  | .close i => closeConn sys i

/-- Run a sequence of events from the empty manager state. -/
def runSys (maxConn : ℤ) (ops : List SysOp) : Except String ManagerState :=
  ops.foldlM (applySysOp maxConn) emptyManager

/-! ### Claim-side predicates -/

/-- Does `v` hold a value of the declared kind `k`, in the fragment for which
the amended round-trip claim holds: in-range Int32 ints, finite-bit-pattern
floats, ASCII-only strings, byte strings, and float vectors whose elements
are floats (for the float32 kind, floats that survive the binary32
round-trip)? -/
def valOk : Kind → PyVal → Bool
  | .kInt, .pInt i => decide (-(2 ^ 31) ≤ i ∧ i < 2 ^ 31)
  | .kFloat, .pFloat w => decide (w < 2 ^ 64)
  | .kStr, .pStr cs =>
    cs.all (fun c => decide (c < 128)) && decide (cs.length < 2 ^ 32)
  | .kBytes, .pBytes bs =>
    bs.all (fun b => decide (b < 256)) && decide (bs.length < 2 ^ 32)
  | .kF32v, .pList xs => (xs.all (fun x =>
      match x with
      | .pFloat w => decide (w < 2 ^ 64) && decide (f32ToF64bits (f64ToF32bits w) = w)
      | _ => false)) && decide (xs.length < 2 ^ 32)
  | .kF64v, .pList xs => (xs.all (fun x =>
      match x with
      | .pFloat w => decide (w < 2 ^ 64)
      | _ => false)) && decide (xs.length < 2 ^ 32)
  | _, _ => false

/-- Are the message values aligned, entry by entry, with the declared
arguments, each value admissible for its kind? -/
def argsMatch : List (String × Kind) → List (String × PyVal) → Bool
  | [], [] => true
  | (n, k) :: args, (n', v) :: vals => n' == n && valOk k v && argsMatch args vals
  | _, _ => false

/-- Reachable reader states: the byte counter matches the buffer, and the
buffer is still short of the unit (length prefix or body) being read. -/
def readerWF (s : RState) : Prop :=
  s.read = s.buff.length ∧
  (truthySize s.size = true → s.read < s.size.getD 0) ∧
  (truthySize s.size = false → s.read < 4)

/-- Mid-frame reader invariant: reading the frame for `body`, the reader has
consumed exactly the first `k` bytes of the length prefix (case one) or of
the body (case two); the rest of the frame is still in the stream. -/
def frameInv (body : List ℕ) (s : RState) (stream : List ℕ) : Prop :=
  (∃ k, k < 4 ∧ s = ⟨k, none, (natToBytes 4 body.length).take k⟩ ∧
    stream = (natToBytes 4 body.length).drop k ++ body) ∨
  (∃ k, k < body.length ∧ s = ⟨k, some body.length, body.take k⟩ ∧
    stream = body.drop k)

/-- Invariant tying the per-user counts to the live connections: every count
equals the number of connections currently holding that user, and the ghost
counters balance. -/
def sysInv (sys : ManagerState) : Prop :=
  (∀ u, userCount sys.counts u
      = ((sys.conns.filter (fun c => c.user = some u)).length : ℤ)) ∧
  (∀ c ∈ sys.conns,
    (c.user.isSome = true → c.alive = true) ∧
    c.enters = c.exits + (if c.user.isSome then 1 else 0) ∧
    c.enters ≤ 1 ∧ (c.alive = true → c.exits = 0))

/-! ### Concrete instances used by the claims -/

def defaultDef : MessageDefinition := ⟨0, "", []⟩

/-- The parsed form of the four-byte `_ping` frame body. -/
def pingMessage : Message := ⟨(fetchDefinition sixRegistry "_ping").getD defaultDef, []⟩

/-- A registry holding one message with a single `int` argument. -/
def regInt : Registry :=
  ((defineMessage emptyRegistry "OneInt" [("x", .kInt)]).toOption).getD emptyRegistry

def defInt : MessageDefinition := (fetchDefinition regInt "OneInt").getD defaultDef

/-- A registry holding one message with a single `str` argument. -/
def regStr : Registry :=
  ((defineMessage emptyRegistry "OneStr" [("s", .kStr)]).toOption).getD emptyRegistry

def defStr : MessageDefinition := (fetchDefinition regStr "OneStr").getD defaultDef

/-- A message whose `str` argument holds a single non-ASCII character
(code point 233). -/
def msgStrAccent : Message := mkMessage defStr [("s", .pStr [233])]

/-- A registry with one message exercising every argument kind. -/
def regAll : Registry :=
  ((defineMessage emptyRegistry "AllKinds"
    [("a", .kInt), ("b", .kFloat), ("c", .kStr), ("d", .kBytes),
     ("e", .kF32v), ("f", .kF64v)]).toOption).getD emptyRegistry

def defAll : MessageDefinition := (fetchDefinition regAll "AllKinds").getD defaultDef

/-- A message with a value of every kind (1.0; "Hi"; 0.5 and 0.1 as float
bit patterns). -/
def msgAll : Message := mkMessage defAll
  [("a", .pInt (-5)), ("b", .pFloat 0x3FF0000000000000), ("c", .pStr [72, 105]),
   ("d", .pBytes [0, 255]), ("e", .pList [.pFloat 0x3FE0000000000000]),
   ("f", .pList [.pFloat 0x3FB999999999999A])]

/-- A concrete `_login` message (username "m", password "p", version
1.0.0). -/
def loginMsg : Message :=
  mkMessage ((fetchDefinition sixRegistry "_login").getD defaultDef)
    [("username", .pStr [109]), ("password", .pStr [112]),
     ("major", .pInt 1), ("minor", .pInt 0), ("revision", .pInt 0)]


/-- A tick environment in which nothing has arrived yet. -/
def demoEnvIdle : TickEnv :=
  ⟨fun _ _ _ => true, fun _ _ _ => some "m", "s", .ok none, false, false⟩

/-- A tick environment delivering a valid login for user `m`. -/
def demoEnvLogin : TickEnv :=
  ⟨fun _ _ _ => true, fun _ _ _ => some "m", "s", .ok (some loginMsg), false,
   false⟩

/-- A demonstration run: a connection is accepted, welcomed, logs in as `m`
and is closed twice. -/
def demoOps : List SysOp :=
  [.accept, .tick 0 demoEnvIdle, .tick 0 demoEnvLogin, .close 0, .close 0]

/-- The state the demonstration run ends in. -/
def demoSys : ManagerState := ⟨[⟨false, true, none, 1, 1⟩], [("m", 0)]⟩

end Wevis

namespace Wevis

/-- C5: after module initialisation the six reserved message definitions exist
with ids 1–6 assigned in the order `_ping`, `_pong`, `_welcome`, `_login`,
`_loginReject`, `_loginAccept`, and the wire (sorted) order of the `_login`
arguments is `major`, `minor`, `password`, `revision`, `username`. -/
theorem C5_builtin_definitions :
    builtinRegistry = .ok sixRegistry ∧
    (fetchDefinition sixRegistry "_ping").map MessageDefinition.id = some 1 ∧
    (fetchDefinition sixRegistry "_pong").map MessageDefinition.id = some 2 ∧
    (fetchDefinition sixRegistry "_welcome").map MessageDefinition.id = some 3 ∧
    (fetchDefinition sixRegistry "_login").map MessageDefinition.id = some 4 ∧
    (fetchDefinition sixRegistry "_loginReject").map MessageDefinition.id = some 5 ∧
    (fetchDefinition sixRegistry "_loginAccept").map MessageDefinition.id = some 6 ∧
    (fetchDefinition sixRegistry "_login").map (fun d => d.args.map Prod.fst) =
      some ["major", "minor", "password", "revision", "username"] :=
  ⟨rfl, rfl, rfl, rfl, rfl, rfl, rfl, rfl⟩

/-- C2 (code bug): constructing a Client with a valid three-integer version,
a username and a password and all other parameters at their defaults raises
`AttributeError` instead of returning normally: `Client.__init__` reads
`wevis.logging_level` (and later `wevis.default_port`), but the module
defines `_LOGGING_LEVEL` and `_DEFAULT_PORT`.  The intended defaults are in
place (`_DEFAULT_PORT = 12121`, `PRE_RUN = 0`), as the claim describes. -/
theorem C2_client_constructor_raises :
    clientInit [1, 0, 0] "user" "pw" none none "localhost"
      = .error "AttributeError: module wevis has no attribute logging_level" ∧
    wevisDefaultPort = 12121 ∧ clientPRE_RUN = 0 :=
  ⟨rfl, rfl, rfl⟩

/-- C3 (code bug): the client handshake can never perform its first step.
`Client._receive_blocking` evaluates `self._reader.read_blocking()`, but
`MessageReader` defines `_read_blocking_internal`; the lookup raises
`AttributeError`, so the blocking receive of `_welcome` fails and no
`_login` is ever sent. -/
theorem C3_handshake_blocked_by_missing_attribute (expected : List String) :
    clientReceiveBlockingInternal expected
      = .error "AttributeError: MessageReader object has no attribute read_blocking" ∧
    clientConnect
      = .error "AttributeError: MessageReader object has no attribute read_blocking" :=
  ⟨rfl, rfl⟩

/-- C4: in the AWAITING_LOGIN state, on a `_login` message the server
evaluates the version validator (reject "Client requires update."), then the
user validator (reject "Invalid credentials."), then the per-user count
against the maximum (reject "Maximum number of connections per user
reached."), stopping at the first failure; in particular a credential
failure is reported with the credential reason for every value of the
per-user count. -/
theorem C4_login_validation_order
    (vv : PyVal → PyVal → PyVal → Bool)
    (uv : PyVal → PyVal → String → Option String)
    (countOf : String → ℤ) (maxConn : ℤ) (salt : String) (t : Bool)
    (m : Message) (major minor revision username password : PyVal)
    (hname : m.definition.name = "_login")
    (hmaj : msgGet m "major" = some major) (hmin : msgGet m "minor" = some minor)
    (hrev : msgGet m "revision" = some revision)
    (husr : msgGet m "username" = some username)
    (hpwd : msgGet m "password" = some password) :
    (vv major minor revision = false →
      tickLogin vv uv countOf maxConn salt (.ok (some m)) t
        = .ok (.rejectedAndClosed "Client requires update."
            "Rejected login: client requires update.")) ∧
    (vv major minor revision = true → uv username password salt = none →
      tickLogin vv uv countOf maxConn salt (.ok (some m)) t
        = .ok (.rejectedAndClosed "Invalid credentials."
            "Rejected login: invalid credentials.")) ∧
    (∀ user, vv major minor revision = true →
      uv username password salt = some user → maxConn ≤ countOf user →
      tickLogin vv uv countOf maxConn salt (.ok (some m)) t
        = .ok (.rejectedAndClosed "Maximum number of connections per user reached."
            "Rejected login: max connections per user reached.")) ∧
    (∀ user, vv major minor revision = true →
      uv username password salt = some user → countOf user < maxConn →
      tickLogin vv uv countOf maxConn salt (.ok (some m)) t
        = .ok (.accepted user)) := by
  refine ⟨?_, ?_, ?_, ?_⟩
  · intro hv
    simp [tickLogin, hname, hmaj, hmin, hrev, hv]
  · intro hv hu
    simp [tickLogin, hname, hmaj, hmin, hrev, husr, hpwd, hv, hu]
  · intro user hv hu hc
    simp [tickLogin, hname, hmaj, hmin, hrev, husr, hpwd, hv, hu, hc]
  · intro user hv hu hc
    simp [tickLogin, hname, hmaj, hmin, hrev, husr, hpwd, hv, hu, not_le.mpr hc]

/-- Witness for C4: with every username accepted by the version check but
rejected by the credential check, the response is the credential reason even
though the user already has 99 active connections (max 1). -/
theorem C4_login_validation_order_witness :
    tickLogin (fun _ _ _ => true) (fun _ _ _ => none) (fun _ => 99) 1 "s"
        (.ok (some loginMsg)) false
      = .ok (.rejectedAndClosed "Invalid credentials."
          "Rejected login: invalid credentials.") :=
  (C4_login_validation_order (fun _ _ _ => true) (fun _ _ _ => none)
    (fun _ => 99) 1 "s" false loginMsg (.pInt 1) (.pInt 0) (.pInt 0)
    (.pStr [109]) (.pStr [112]) rfl rfl rfl rfl rfl rfl).2.1 rfl rfl

/-- Binding an ok value. -/
@[simp] theorem bindOk_eq {α β : Type} (a : α) (f : α → Except String β) :
    (Except.ok a >>= f) = f a := rfl

/-- Binding an error. -/
@[simp] theorem bindError_eq {α β : Type} (e : String) (f : α → Except String β) :
    ((Except.error e : Except String α) >>= f) = Except.error e := rfl

/-- Destructuring a successful bind. -/
theorem exceptBind_ok {α β : Type} {x : Except String α} {f : α → Except String β}
    {b : β} (h : (x >>= f) = .ok b) : ∃ a, x = .ok a ∧ f a = .ok b := by
  cases x with
  | error e => cases h
  | ok a => exact ⟨a, rfl, h⟩

/-- Applying `float` to a list of floats is the identity. -/
theorem coerceFloatList_map (ws : List ℕ) :
    coerceFloatList (ws.map PyVal.pFloat) = .ok (ws.map PyVal.pFloat) := by
  induction ws with
  | nil => rfl
  | cons w ws ih =>
    simp only [List.map_cons, coerceFloatList, pyFloatOf, ih]
    rfl

/-- C8 (amended): `Message.set` coerces each supplied value with the declared
constructor — `int(v)`, `float(v)`, `str(v)` or an elementwise `float` for
vectors.  Ints given for an `int` argument are stored unchanged (Python ints
are unbounded: there is no truncation into the signed 32-bit range); floats
for a `float` argument are stored unchanged and ints are converted to
binary64; strings for a `str` argument are stored unchanged; lists of floats
for the vector kinds are stored unchanged. -/
theorem C8_set_coercion (m : Message) (name : String) (k : Kind)
    (hk : m.definition.args.lookup name = some k) :
    (k = .kInt → ∀ i : ℤ, msgSet m [(name, .pInt i)]
        = .ok ⟨m.definition, setValue m.values name (.pInt i)⟩) ∧
    (k = .kFloat → ∀ w : ℕ, msgSet m [(name, .pFloat w)]
        = .ok ⟨m.definition, setValue m.values name (.pFloat w)⟩) ∧
    (k = .kFloat → ∀ i : ℤ, msgSet m [(name, .pInt i)]
        = .ok ⟨m.definition, setValue m.values name (.pFloat (f64OfInt i))⟩) ∧
    (k = .kStr → ∀ cs : List ℕ, msgSet m [(name, .pStr cs)]
        = .ok ⟨m.definition, setValue m.values name (.pStr cs)⟩) ∧
    ((k = .kF32v ∨ k = .kF64v) → ∀ ws : List ℕ,
      msgSet m [(name, .pList (ws.map PyVal.pFloat))]
        = .ok ⟨m.definition, setValue m.values name (.pList (ws.map PyVal.pFloat))⟩) := by
  refine ⟨?_, ?_, ?_, ?_, ?_⟩
  · rintro rfl i
    simp only [msgSet, List.foldlM_cons, List.foldlM_nil, hk, coerceKind, pyIntOf]
    rfl
  · rintro rfl w
    simp only [msgSet, List.foldlM_cons, List.foldlM_nil, hk, coerceKind, pyFloatOf]
    rfl
  · rintro rfl i
    simp only [msgSet, List.foldlM_cons, List.foldlM_nil, hk, coerceKind, pyFloatOf]
    rfl
  · rintro rfl cs
    simp only [msgSet, List.foldlM_cons, List.foldlM_nil, hk, coerceKind, pyStrOf]
    rfl
  · rintro (rfl | rfl) ws <;>
    · simp only [msgSet, List.foldlM_cons, List.foldlM_nil, hk, coerceKind,
        coerceFloatList_map]
      rfl

/-- C8 counterexample: setting an `int` argument to 2^40 stores 2^40
unchanged — the stored value does not lie in the signed 32-bit range, so
`set` performs no truncation into that range. -/
theorem C8_no_32bit_truncation_counterexample :
    (msgSet (mkMessage defInt []) [("x", .pInt (2 ^ 40))]).map
        (fun m => m.values.lookup "x") = .ok (some (.pInt (2 ^ 40))) ∧
    ¬((2 : ℤ) ^ 40 ≤ 2 ^ 31 - 1) :=
  ⟨rfl, by norm_num⟩

/-- Witness for C8: a small int is stored unchanged. -/
theorem C8_set_coercion_witness :
    msgSet (mkMessage defInt []) [("x", .pInt 5)]
      = .ok ⟨defInt, setValue (mkMessage defInt []).values "x" (.pInt 5)⟩ :=
  (C8_set_coercion (mkMessage defInt []) "x" .kInt rfl).1 rfl 5

/-- Looking a key up in a keyed map built over the same keys. -/
theorem lookup_map_keys (l : List (String × Kind)) (g : String → PyVal) (n : String) :
    (l.map (fun a => (a.1, g a.1))).lookup n = (l.lookup n).map (fun _ => g n) := by
  induction l with
  | nil => rfl
  | cons a t ih =>
    by_cases h : n = a.1
    · subst h
      simp [List.lookup]
    · simp [List.lookup, beq_false_of_ne h, ih]

/-- A value that packs as a vector is not `None`. -/
theorem packVector_ne_none (k : Kind) (v : PyVal) (vp : VecPart)
    (h : packVector k v = .ok vp) : v ≠ .pNone := by
  intro hv
  subst hv
  obtain ⟨n, hn, -⟩ := exceptBind_ok h
  cases hn

/-- Reading a value that is ok through `getValue`. -/
theorem getValue_ok {get : String → Option PyVal} {name : String} {v : PyVal}
    (h : getValue get name = .ok v) : get name = some v := by
  unfold getValue at h
  cases hg : get name with
  | none => rw [hg] at h; cases h
  | some w => rw [hg] at h; cases h; rfl

/-- If both packing phases succeed, no argument value is `None`. -/
theorem pack_phases_no_none :
    ∀ (args : List (String × Kind)) (get : String → Option PyVal)
      (vps : List VecPart) (fixed : List ℕ),
      packVectors args get = .ok vps → packFixed args get vps = .ok fixed →
      ∀ p ∈ args, get p.1 ≠ some .pNone := by
  intro args
  induction args with
  | nil =>
    intro get vps fixed _ _ p hp
    cases hp
  | cons a args ih =>
    intro get vps fixed h1 h2 p hp
    obtain ⟨n, k⟩ := a
    have hfix : (k = .kInt ∨ k = .kFloat) → get p.1 ≠ some .pNone := by
      rintro (rfl | rfl)
      case inl =>
        simp only [packVectors] at h1
        simp only [packFixed] at h2
        obtain ⟨v, hv, hB⟩ := exceptBind_ok h2
        have hg := getValue_ok hv
        cases v <;> try cases hB
        case pInt i =>
          have hB2 : (if -(2 ^ 31) ≤ i ∧ i < 2 ^ 31 then
              (do
                let rest ← packFixed args get vps
                Except.ok (int32ToBytes i ++ rest) : Except String (List ℕ))
              else Except.error "struct.error: int out of 32-bit range")
              = Except.ok fixed := hB
          by_cases hrange : -(2 ^ 31) ≤ i ∧ i < 2 ^ 31
          · rw [if_pos hrange] at hB2
            obtain ⟨rest, hr, -⟩ := exceptBind_ok hB2
            rcases List.mem_cons.mp hp with h | h
            · subst h; simp [hg]
            · exact ih get vps rest h1 hr p h
          · rw [if_neg hrange] at hB2
            cases hB2
      case inr =>
        simp only [packVectors] at h1
        simp only [packFixed] at h2
        obtain ⟨v, hv, hB⟩ := exceptBind_ok h2
        have hg := getValue_ok hv
        cases v <;> try cases hB
        case pInt i =>
          obtain ⟨rest, hr, -⟩ := exceptBind_ok hB
          rcases List.mem_cons.mp hp with h | h
          · subst h; simp [hg]
          · exact ih get vps rest h1 hr p h
        case pFloat w =>
          obtain ⟨rest, hr, -⟩ := exceptBind_ok hB
          rcases List.mem_cons.mp hp with h | h
          · subst h; simp [hg]
          · exact ih get vps rest h1 hr p h
    have hvar : (k = .kStr ∨ k = .kBytes ∨ k = .kF32v ∨ k = .kF64v) →
        get p.1 ≠ some .pNone := by
      rintro (rfl | rfl | rfl | rfl)
      all_goals {
        simp only [packVectors] at h1
        obtain ⟨v, hv, hB⟩ := exceptBind_ok h1
        have hg := getValue_ok hv
        obtain ⟨vp, hvp, hC⟩ := exceptBind_ok hB
        obtain ⟨ps, hps, hD⟩ := exceptBind_ok hC
        cases hD
        simp only [packFixed] at h2
        have h2b : (if vp.n < 2 ^ 32 then
            (do
              let rest ← packFixed args get ps
              Except.ok (natToBytes 4 vp.n ++ rest) : Except String (List ℕ))
            else Except.error "struct.error: length does not fit in 32 bits")
            = Except.ok fixed := h2
        by_cases hnn : vp.n < 2 ^ 32
        rotate_left
        · rw [if_neg hnn] at h2b
          cases h2b
        · rw [if_pos hnn] at h2b
          obtain ⟨rest, hr, -⟩ := exceptBind_ok h2b
          rcases List.mem_cons.mp hp with h | h
          · subst h
            rw [hg]
            intro hcon
            exact packVector_ne_none _ v vp hvp (by injection hcon)
          · exact ih get ps rest hps hr p h
      }
    cases k
    case kInt => exact hfix (Or.inl rfl)
    case kFloat => exact hfix (Or.inr rfl)
    case kStr => exact hvar (Or.inl rfl)
    case kBytes => exact hvar (Or.inr (Or.inl rfl))
    case kF32v => exact hvar (Or.inr (Or.inr (Or.inl rfl)))
    case kF64v => exact hvar (Or.inr (Or.inr (Or.inr rfl)))

/-- C10: constructing a message without supplying a value for an argument
succeeds, storing `None` for it; packing succeeds only when every argument
holds a value (a message in which some argument is `None` never packs to
bytes). -/
theorem C10_missing_values (d : MessageDefinition) (initial : List (String × PyVal))
    (name : String) (m : Message) (bs : List ℕ) :
    ((d.args.lookup name).isSome = true → initial.lookup name = none →
      (mkMessage d initial).values.lookup name = some .pNone) ∧
    (packMessage m = .ok bs → ∀ p ∈ m.definition.args,
      m.values.lookup p.1 ≠ some .pNone) := by
  constructor
  · intro hsome hnone
    unfold mkMessage
    rw [lookup_map_keys d.args (fun x => (initial.lookup x).getD .pNone) name]
    cases h : d.args.lookup name with
    | none => rw [h] at hsome; cases hsome
    | some k => simp [hnone]
  · intro hok p hp
    unfold packMessage at hok
    split at hok
    · obtain ⟨vps, h1, hokB⟩ := exceptBind_ok hok
      obtain ⟨fixed, h2, -⟩ := exceptBind_ok hokB
      exact pack_phases_no_none m.definition.args _ vps fixed h1 h2 p hp
    · cases hok

/-- Witness for C10: the unset argument of a fresh message reads as `None`,
and a message whose single argument has a value packs with no `None` among
its argument values. -/
theorem C10_missing_values_witness :
    (mkMessage defInt []).values.lookup "x" = some .pNone ∧
    ∀ p ∈ defInt.args,
      (mkMessage defInt [("x", .pInt 1)]).values.lookup p.1 ≠ some .pNone :=
  ⟨(C10_missing_values defInt [] "x" pingMessage []).1 rfl rfl,
   (C10_missing_values defInt [] "x" (mkMessage defInt [("x", .pInt 1)])
      [1, 0, 0, 0, 1, 0, 0, 0]).2 rfl⟩


/-- C7 (amended): a recv that signals would-block makes `read()` return
`None` with the reader state unchanged; a recv that returns zero bytes
without raising (the peer closed) makes `read()` fail with
`SocketClosedError` exactly when the buffer of the unit currently being read
(length prefix or body) is empty — when partial bytes of that unit are
already buffered, `read()` returns `None` instead and keeps the buffer, so
the close goes undetected on that call. -/
theorem C7_would_block_and_zero_recv (reg : Registry) (s : RState)
    (stream : List ℕ) (cs : List Chunk) (hwf : readerWF s) :
    readOnce reg s stream (.block :: cs) = .ok (none, s, stream, cs) ∧
    ∀ n, readOnce reg s [] (.take n :: cs)
        = if s.buff.isEmpty
          then .error "SocketClosedError: socket closed unexpectedly"
          else .ok (none, s, [], cs) := by
  obtain ⟨r, sz, bf⟩ := s
  obtain ⟨hr, htrue, hfalse⟩ := hwf
  simp only at hr
  subst hr
  constructor
  · cases htr : truthySize sz <;>
      simp [readOnce, readBody, recvChunk, htr]
  · intro n
    cases htr : truthySize sz
    · -- length-reading phase
      have hlt : bf.length < 4 := hfalse htr
      cases bf with
      | nil => simp [readOnce, readBody, recvChunk, htr]
      | cons b bs =>
        have h0 : ¬((b :: bs).length = 0) := by simp
        have h4 : ¬((b :: bs).length = 4) := by omega
        have h3 : ¬(bs.length = 3) := by simp at h4; omega
        simp [readOnce, readBody, recvChunk, htr, h0, h4, h3]
    · -- body-reading phase
      have hlt : bf.length < sz.getD 0 := htrue htr
      cases bf with
      | nil => simp [readOnce, readBody, recvChunk, htr]
      | cons b bs =>
        have h0 : ¬((b :: bs).length = 0) := by simp
        have hL : ¬((b :: bs).length = sz.getD 0) := by omega
        have hL2 : ¬(bs.length + 1 = sz.getD 0) := by simp at hL; omega
        simp [readOnce, readBody, recvChunk, htr, h0, hL, hL2]

/-- C7 counterexample: deliver two of the four length-prefix bytes, then let
the peer close (a zero-byte recv).  The second `read()` call returns `None`
instead of raising `SocketClosedError`, with the two bytes still buffered. -/
theorem C7_buffered_zero_recv_counterexample :
    runReader sixRegistry 2 initReader [5, 0] [.take 4, .take 0]
      = .ok ([], ⟨2, none, [5, 0]⟩, []) := rfl

/-- Witness for C7: in a state with two buffered length bytes, a would-block
recv returns `None` unchanged, and a zero-byte recv also returns `None`. -/
theorem C7_would_block_and_zero_recv_witness :
    readOnce sixRegistry ⟨2, none, [5, 0]⟩ [7, 7] [.block]
      = .ok (none, ⟨2, none, [5, 0]⟩, [7, 7], []) ∧
    readOnce sixRegistry ⟨2, none, [5, 0]⟩ [] [.take 3]
      = .ok (none, ⟨2, none, [5, 0]⟩, [], []) := by
  have h := C7_would_block_and_zero_recv sixRegistry ⟨2, none, [5, 0]⟩ [7, 7] []
    (by constructor
        · rfl
        · constructor
          · intro hc; cases hc
          · intro hc; decide)
  refine ⟨h.1, ?_⟩
  have h2 := C7_would_block_and_zero_recv sixRegistry ⟨2, none, [5, 0]⟩ [] []
    (by constructor
        · rfl
        · constructor
          · intro hc; cases hc
          · intro hc; decide)
  simpa using h2.2 3


/-- Length of the little-endian encoding. -/
theorem natToBytes_length (k : ℕ) : ∀ n, (natToBytes k n).length = k := by
  induction k with
  | zero => intro n; rfl
  | succ k ih => intro n; simp [natToBytes, ih]

/-- Decoding the little-endian encoding truncates to `8 * k` bits. -/
theorem bytesToNat_natToBytes (k : ℕ) : ∀ n,
    bytesToNat (natToBytes k n) = n % 2 ^ (8 * k) := by
  induction k with
  | zero => intro n; simp [natToBytes, bytesToNat, Nat.mod_one]
  | succ k ih =>
    intro n
    rw [natToBytes, bytesToNat, ih (n / 256)]
    have h28 : (2 : ℕ) ^ (8 * (k + 1)) = 256 * 2 ^ (8 * k) := by ring
    rw [h28, Nat.mod_mul]

/-- A successfully unpacked body spans at least the four id bytes. -/
theorem unpack_ok_length {reg : Registry} {body : List ℕ} {msg : Message}
    (h : unpackMessage reg body = .ok msg) : 4 ≤ body.length := by
  by_contra hlt
  unfold unpackMessage at h
  rw [if_neg hlt] at h
  cases h

/-- A take on an exhausted stream delivers nothing. -/
theorem recvChunk_nil (req n : ℕ) : recvChunk [] req (.take n) = some ([], []) := by
  simp [recvChunk]

/-- One `read()` call in the length phase resolved by a take, written out. -/
theorem readOnce_take_len (reg : Registry) (r : ℕ) (bf : List ℕ)
    (stream : List ℕ) (cs : List Chunk) (n : ℕ) (hr : r = bf.length) :
    readOnce reg ⟨r, none, bf⟩ stream (.take n :: cs)
      = (if (bf ++ stream.take (min (min (n + 1) (4 - r)) stream.length)).length = 0
         then .error "SocketClosedError: socket closed unexpectedly"
         else readBody reg
           (if (bf ++ stream.take (min (min (n + 1) (4 - r)) stream.length)).length = 4
            then ⟨0, some (bytesToNat
                    (bf ++ stream.take (min (min (n + 1) (4 - r)) stream.length))), []⟩
            else ⟨(bf ++ stream.take (min (min (n + 1) (4 - r)) stream.length)).length,
                  none, bf ++ stream.take (min (min (n + 1) (4 - r)) stream.length)⟩)
           (stream.drop (min (min (n + 1) (4 - r)) stream.length)) cs) := by
  subst hr
  rfl

/-- After a frame has been fully consumed, further reads deliver no message:
blocks return `None` and takes hit the zero-byte close. -/
theorem runReader_post (reg : Registry) :
    ∀ (fuel : ℕ) (cs : List Chunk) (ms : List Message) (s2 : RState)
      (stream2 : List ℕ),
      runReader reg fuel initReader [] cs = .ok (ms, s2, stream2) →
      ms = [] ∧ s2 = initReader ∧ stream2 = [] := by
  intro fuel
  induction fuel with
  | zero =>
    intro cs ms s2 stream2 h
    simp only [runReader, Except.ok.injEq, Prod.mk.injEq] at h
    exact ⟨h.1.symm, h.2.1.symm, h.2.2.symm⟩
  | succ fuel ih =>
    intro cs ms s2 stream2 h
    cases cs with
    | nil =>
      simp only [runReader, Except.ok.injEq, Prod.mk.injEq] at h
      exact ⟨h.1.symm, h.2.1.symm, h.2.2.symm⟩
    | cons c cs' =>
      simp only [runReader] at h
      obtain ⟨⟨om, sA, streamA, csA⟩, hro, h2⟩ := exceptBind_ok h
      cases c with
      | block =>
        have heq : readOnce reg initReader [] (.block :: cs')
            = .ok (none, initReader, [], cs') := rfl
        rw [heq] at hro
        simp only [Except.ok.injEq, Prod.mk.injEq] at hro
        obtain ⟨e1, e2, e3, e4⟩ := hro
        subst e1; subst e2; subst e3; subst e4
        obtain ⟨⟨msB, sB, streamB⟩, hrB, hfin⟩ := exceptBind_ok h2
        obtain ⟨f1, f2, f3⟩ := ih cs' msB sB streamB hrB
        subst f1; subst f2; subst f3
        simp only [Except.ok.injEq, Prod.mk.injEq] at hfin
        exact ⟨hfin.1.symm, hfin.2.1.symm, hfin.2.2.symm⟩
      | take n =>
        have heq : readOnce reg initReader [] (.take n :: cs')
            = .error "SocketClosedError: socket closed unexpectedly" := by
          rw [show initReader = (⟨([] : List ℕ).length, none, []⟩ : RState) from rfl,
            readOnce_take_len reg ([] : List ℕ).length [] [] cs' n rfl]
          simp
        rw [heq] at hro
        cases hro

/-- One `read()` call in the body phase: the reader advances within the body
or delivers the message exactly when the last body byte arrives. -/
theorem readBody_frame (reg : Registry) (body : List ℕ) (msg : Message)
    (hun : unpackMessage reg body = .ok msg)
    (k : ℕ) (hk : k < body.length) (cs : List Chunk) :
    ∀ om s2 stream2 cs2,
      readBody reg ⟨k, some body.length, body.take k⟩ (body.drop k) cs
        = .ok (om, s2, stream2, cs2) →
      (om = none ∧ frameInv body s2 stream2) ∨
      (om = some msg ∧ s2 = initReader ∧ stream2 = []) := by
  have hb4 : 4 ≤ body.length := unpack_ok_length hun
  have htr : truthySize (some body.length) = true := by
    simp only [truthySize, ne_eq, bne_iff_ne]
    omega
  intro om s2 stream2 cs2 h
  cases cs with
  | nil =>
    rw [readBody, if_pos htr] at h
    simp only [Except.ok.injEq, Prod.mk.injEq] at h
    obtain ⟨h1, h2, h3, -⟩ := h
    subst h1; subst h2; subst h3
    exact Or.inl ⟨rfl, Or.inr ⟨k, hk, rfl, rfl⟩⟩
  | cons c cs' =>
    cases c with
    | block =>
      rw [readBody, if_pos htr] at h
      simp only [recvChunk, Except.ok.injEq, Prod.mk.injEq] at h
      obtain ⟨h1, h2, h3, -⟩ := h
      subst h1; subst h2; subst h3
      exact Or.inl ⟨rfl, Or.inr ⟨k, hk, rfl, rfl⟩⟩
    | take n =>
      rw [readBody, if_pos htr] at h
      simp only [recvChunk, Option.getD_some, List.length_drop] at h
      set kk := min (min (n + 1) (body.length - k)) (body.length - k) with hkkdef
      have hkk_le : kk ≤ body.length - k := by omega
      have hkk_pos : 1 ≤ kk := by omega
      have hbuff : body.take k ++ (body.drop k).take kk = body.take (k + kk) :=
        (List.take_add body k kk).symm
      rw [hbuff] at h
      have hblen : (body.take (k + kk)).length = k + kk := by
        rw [List.length_take]
        omega
      have hlen_ne : ¬(body.take (k + kk)).length = 0 := by omega
      rw [if_neg hlen_ne] at h
      by_cases heq : k + kk = body.length
      · have hfull : body.take (k + kk) = body := by
          rw [heq, List.take_length]
        rw [hblen, if_pos heq, hfull, hun] at h
        simp only [bindOk_eq, Except.ok.injEq, Prod.mk.injEq] at h
        obtain ⟨h1, h2, h3, -⟩ := h
        refine Or.inr ⟨h1.symm, h2.symm, ?_⟩
        rw [← h3, List.drop_drop]
        apply List.drop_eq_nil_of_le
        omega
      · rw [hblen, if_neg heq] at h
        simp only [Except.ok.injEq, Prod.mk.injEq] at h
        obtain ⟨h1, h2, h3, -⟩ := h
        subst h1
        refine Or.inl ⟨rfl, Or.inr ⟨k + kk, by omega, h2.symm, ?_⟩⟩
        rw [← h3, List.drop_drop]

/-- One `read()` call anywhere in a frame: the reader stays inside the frame
invariant or delivers the message with the stream consumed. -/
theorem readOnce_frame (reg : Registry) (body : List ℕ) (msg : Message)
    (hun : unpackMessage reg body = .ok msg) (hlen : body.length < 2 ^ 32)
    (s : RState) (stream : List ℕ) (cs : List Chunk)
    (hinv : frameInv body s stream) :
    ∀ om s2 stream2 cs2,
      readOnce reg s stream cs = .ok (om, s2, stream2, cs2) →
      (om = none ∧ frameInv body s2 stream2) ∨
      (om = some msg ∧ s2 = initReader ∧ stream2 = []) := by
  have hb4 : 4 ≤ body.length := unpack_ok_length hun
  have hP : (natToBytes 4 body.length).length = 4 := natToBytes_length 4 body.length
  intro om s2 stream2 cs2 h
  rcases hinv with ⟨k, hk4, hs, hstr⟩ | ⟨k, hkL, hs, hstr⟩
  · -- length-prefix phase
    subst hs
    subst hstr
    have hklen : ((natToBytes 4 body.length).take k).length = k := by
      rw [List.length_take]
      omega
    cases cs with
    | nil =>
      have heq : readOnce reg ⟨k, none, (natToBytes 4 body.length).take k⟩
          ((natToBytes 4 body.length).drop k ++ body) []
          = .ok (none, ⟨k, none, (natToBytes 4 body.length).take k⟩,
                 (natToBytes 4 body.length).drop k ++ body, []) := rfl
      rw [heq] at h
      simp only [Except.ok.injEq, Prod.mk.injEq] at h
      obtain ⟨h1, h2, h3, -⟩ := h
      subst h1; subst h2; subst h3
      exact Or.inl ⟨rfl, Or.inl ⟨k, hk4, rfl, rfl⟩⟩
    | cons c cs' =>
      cases c with
      | block =>
        have heq : readOnce reg ⟨k, none, (natToBytes 4 body.length).take k⟩
            ((natToBytes 4 body.length).drop k ++ body) (.block :: cs')
            = .ok (none, ⟨k, none, (natToBytes 4 body.length).take k⟩,
                   (natToBytes 4 body.length).drop k ++ body, cs') := rfl
        rw [heq] at h
        simp only [Except.ok.injEq, Prod.mk.injEq] at h
        obtain ⟨h1, h2, h3, -⟩ := h
        subst h1; subst h2; subst h3
        exact Or.inl ⟨rfl, Or.inl ⟨k, hk4, rfl, rfl⟩⟩
      | take n =>
        rw [readOnce_take_len reg k ((natToBytes 4 body.length).take k)
          ((natToBytes 4 body.length).drop k ++ body) cs' n hklen.symm] at h
        have hslen : ((natToBytes 4 body.length).drop k ++ body).length
            = (4 - k) + body.length := by
          simp [List.length_drop, hP]
        rw [hslen] at h
        set kk := min (min (n + 1) (4 - k)) (4 - k + body.length) with hkkdef
        have hkk_le4 : kk ≤ 4 - k := by omega
        have hkk_pos : 1 ≤ kk := by omega
        have hdlen : ((natToBytes 4 body.length).drop k).length = 4 - k := by
          simp [List.length_drop, hP]
        have htake : ((natToBytes 4 body.length).drop k ++ body).take kk
            = ((natToBytes 4 body.length).drop k).take kk := by
          rw [List.take_append_eq_append_take]
          have hz : kk - ((natToBytes 4 body.length).drop k).length = 0 := by
            rw [hdlen]; omega
          rw [hz, List.take_zero, List.append_nil]
        have hdrop : ((natToBytes 4 body.length).drop k ++ body).drop kk
            = (natToBytes 4 body.length).drop (k + kk) ++ body := by
          rw [List.drop_append_eq_append_drop]
          have hz : kk - ((natToBytes 4 body.length).drop k).length = 0 := by
            rw [hdlen]; omega
          rw [hz, List.drop_zero, List.drop_drop]
        rw [htake, hdrop] at h
        have hbuff : (natToBytes 4 body.length).take k
            ++ ((natToBytes 4 body.length).drop k).take kk
            = (natToBytes 4 body.length).take (k + kk) :=
          (List.take_add (natToBytes 4 body.length) k kk).symm
        rw [hbuff] at h
        have hblen : ((natToBytes 4 body.length).take (k + kk)).length = k + kk := by
          rw [List.length_take]
          omega
        have hlen_ne : ¬((natToBytes 4 body.length).take (k + kk)).length = 0 := by
          omega
        rw [if_neg hlen_ne, hblen] at h
        by_cases heq : k + kk = 4
        · rw [if_pos heq] at h
          have hfull : (natToBytes 4 body.length).take (k + kk)
              = natToBytes 4 body.length := by
            apply List.take_of_length_le
            omega
          rw [hfull] at h
          have hsz : bytesToNat (natToBytes 4 body.length) = body.length := by
            rw [bytesToNat_natToBytes]
            have h32 : 8 * 4 = 32 := by norm_num
            rw [h32]
            exact Nat.mod_eq_of_lt hlen
          rw [hsz] at h
          have hdone : (natToBytes 4 body.length).drop (k + kk) = [] := by
            apply List.drop_eq_nil_of_le
            omega
          rw [hdone, List.nil_append] at h
          have hzero : (⟨0, some body.length, []⟩ : RState)
              = ⟨0, some body.length, body.take 0⟩ := rfl
          rw [hzero, show body = body.drop 0 from rfl] at h
          exact readBody_frame reg body msg hun 0 (by omega) cs' om s2 stream2 cs2 h
        · rw [if_neg heq] at h
          have hrb : readBody reg
              ⟨k + kk, none, (natToBytes 4 body.length).take (k + kk)⟩
              ((natToBytes 4 body.length).drop (k + kk) ++ body) cs'
              = .ok (none, ⟨k + kk, none, (natToBytes 4 body.length).take (k + kk)⟩,
                     (natToBytes 4 body.length).drop (k + kk) ++ body, cs') := rfl
          rw [hrb] at h
          simp only [Except.ok.injEq, Prod.mk.injEq] at h
          obtain ⟨h1, h2, h3, -⟩ := h
          subst h1; subst h2; subst h3
          exact Or.inl ⟨rfl, Or.inl ⟨k + kk, by omega, rfl, rfl⟩⟩
  · -- body phase
    subst hs
    subst hstr
    have htr : truthySize (some body.length) = true := by
      simp only [truthySize, ne_eq, bne_iff_ne]
      omega
    rw [readOnce.eq_def, if_pos htr] at h
    exact readBody_frame reg body msg hun k hkL cs om s2 stream2 cs2 h


/-- Under the frame invariant the stream still holds bytes. -/
theorem frameInv_stream_ne (body : List ℕ) (s : RState) (stream : List ℕ)
    (hb4 : 4 ≤ body.length) (hinv : frameInv body s stream) : stream ≠ [] := by
  have hP : (natToBytes 4 body.length).length = 4 := natToBytes_length 4 body.length
  rcases hinv with ⟨k, hk4, -, hstr⟩ | ⟨k, hkL, -, hstr⟩
  · subst hstr
    intro hc
    rcases List.append_eq_nil.mp hc with ⟨-, h2⟩
    rw [h2] at hb4
    simp at hb4
  · subst hstr
    intro hc
    have := List.drop_eq_nil_iff_le.mp hc
    omega

/-- Repeated reads under the frame invariant: if the run ends with the
stream consumed, exactly the frame's message was produced and the reader is
back in its initial state. -/
theorem runReader_inv (reg : Registry) (body : List ℕ) (msg : Message)
    (hun : unpackMessage reg body = .ok msg) (hlen : body.length < 2 ^ 32) :
    ∀ (fuel : ℕ) (cs : List Chunk) (s : RState) (stream : List ℕ),
      frameInv body s stream →
      ∀ ms s2 stream2, runReader reg fuel s stream cs = .ok (ms, s2, stream2) →
        stream2 = [] → ms = [msg] ∧ s2 = initReader := by
  have hb4 : 4 ≤ body.length := unpack_ok_length hun
  intro fuel
  induction fuel with
  | zero =>
    intro cs s stream hinv ms s2 stream2 hrun hdone
    simp only [runReader, Except.ok.injEq, Prod.mk.injEq] at hrun
    obtain ⟨-, -, h3⟩ := hrun
    exact absurd (h3.trans hdone) (frameInv_stream_ne body s stream hb4 hinv)
  | succ fuel ih =>
    intro cs s stream hinv ms s2 stream2 hrun hdone
    cases cs with
    | nil =>
      simp only [runReader, Except.ok.injEq, Prod.mk.injEq] at hrun
      obtain ⟨-, -, h3⟩ := hrun
      exact absurd (h3.trans hdone) (frameInv_stream_ne body s stream hb4 hinv)
    | cons c cs' =>
      simp only [runReader] at hrun
      obtain ⟨⟨om, sA, streamA, csA⟩, hro, h2⟩ := exceptBind_ok hrun
      obtain ⟨⟨msB, sB, streamB⟩, hrB, hfin⟩ := exceptBind_ok h2
      simp only [Except.ok.injEq, Prod.mk.injEq] at hfin
      obtain ⟨f1, f2, f3⟩ := hfin
      rcases readOnce_frame reg body msg hun hlen s stream (c :: cs') hinv
          om sA streamA csA hro with ⟨homn, hinvA⟩ | ⟨homs, hsA, hstA⟩
      · subst homn
        have hrec := ih csA sA streamA hinvA msB sB streamB hrB (f3.trans hdone)
        constructor
        · rw [← f1]
          simpa using hrec.1
        · rw [← f2]
          exact hrec.2
      · subst homs
        subst hsA
        subst hstA
        obtain ⟨p1, p2, -⟩ := runReader_post reg fuel csA msB sB streamB hrB
        subst p1
        subst p2
        constructor
        · rw [← f1]
          rfl
        · rw [← f2]

/-- C6: a valid frame delivered in arbitrary chunks — down to a single byte
per successful recv, with would-block signals interleaved — yields, across
repeated `read()` calls that consume the whole frame, exactly one message:
the message of the frame body (the same message a one-shot read of the whole
frame returns), leaving the reader back in its initial state. -/
theorem C6_fragmented_frame (reg : Registry) (body : List ℕ) (msg : Message)
    (fuel : ℕ) (cs : List Chunk) (ms : List Message) (s2 : RState)
    (stream2 : List ℕ)
    (hun : unpackMessage reg body = .ok msg) (hlen : body.length < 2 ^ 32)
    (hrun : runReader reg fuel initReader (natToBytes 4 body.length ++ body) cs
      = .ok (ms, s2, stream2))
    (hdone : stream2 = []) :
    ms = [msg] ∧ s2 = initReader := by
  have hinv : frameInv body initReader (natToBytes 4 body.length ++ body) :=
    Or.inl ⟨0, by omega, rfl, rfl⟩
  exact runReader_inv reg body msg hun hlen fuel cs initReader
    (natToBytes 4 body.length ++ body) hinv ms s2 stream2 hrun hdone

/-- Witness for C6: the eight-byte `_ping` frame delivered one byte per
recv, with a would-block interleaved, yields exactly the `_ping` message. -/
theorem C6_fragmented_frame_witness :
    ([pingMessage] : List Message) = [pingMessage] ∧ initReader = initReader :=
  C6_fragmented_frame sixRegistry [1, 0, 0, 0] pingMessage 12
    [.take 0, .take 0, .block, .take 0, .take 0, .take 0, .take 0, .take 0,
     .take 0]
    [pingMessage] initReader [] rfl (by norm_num) rfl rfl


/-- Looking up in a cons cell of an association list over strings. -/
theorem lookup_cons_eq {β : Type} (k u : String) (v : β) (t : List (String × β)) :
    ((k, v) :: t).lookup u = if u = k then some v else t.lookup u := by
  by_cases h : u = k
  · have hb : (u == k) = true := beq_iff_eq.mpr h
    simp [List.lookup, hb, h]
  · have hb : (u == k) = false := beq_eq_false_iff_ne.mpr h
    simp [List.lookup, hb, h]

/-- Looking up after rewriting every entry of one key to a constant value. -/
theorem lookup_map_const (w : ℤ) (u u' : String) (counts : List (String × ℤ)) :
    (counts.map (fun p => if p.1 = u then (p.1, w) else p)).lookup u'
      = if u' = u then (counts.lookup u).map (fun _ => w)
        else counts.lookup u' := by
  induction counts with
  | nil => by_cases hu : u' = u <;> simp [hu, List.lookup]
  | cons p t ih =>
    obtain ⟨k, v⟩ := p
    by_cases hk : k = u <;> by_cases hu : u' = k <;> by_cases hw : u' = u <;>
      simp_all [lookup_cons_eq]

/-- Looking up in an appended association list. -/
theorem lookup_append_cases {β : Type} (u : String) (l l' : List (String × β)) :
    (l ++ l').lookup u
      = match l.lookup u with
        | some v => some v
        | none => l'.lookup u := by
  induction l with
  | nil => simp [List.lookup]
  | cons p t ih =>
    obtain ⟨k, v⟩ := p
    by_cases h : u = k <;> simp [lookup_cons_eq, h, ih]

/-- The `user_enter` update adds one to the count of its user and leaves all
other counts unchanged. -/
theorem userCount_enter (counts : List (String × ℤ)) (u u' : String) :
    userCount (userEnterCounts counts u) u'
      = userCount counts u' + (if u' = u then 1 else 0) := by
  cases hl : counts.lookup u with
  | some v =>
    simp only [userEnterCounts, userCount, hl]
    rw [lookup_map_const (v + 1) u u' counts]
    by_cases hu : u' = u <;> simp [hu, hl]
  | none =>
    simp only [userEnterCounts, userCount, hl]
    rw [lookup_append_cases]
    by_cases hu : u' = u
    · subst hu
      simp [hl, lookup_cons_eq]
    · cases hl2 : counts.lookup u' <;> simp [hl2, lookup_cons_eq, hu]

/-- The `user_exit` update subtracts one from the count of its user and
leaves all other counts unchanged. -/
theorem userCount_exit (counts counts' : List (String × ℤ)) (u u' : String)
    (h : userExitCounts counts u = .ok counts') :
    userCount counts' u' = userCount counts u' - (if u' = u then 1 else 0) := by
  unfold userExitCounts at h
  cases hl : counts.lookup u with
  | none =>
    simp only [hl] at h
    cases h
  | some v =>
    simp only [hl, Except.ok.injEq] at h
    subst h
    unfold userCount
    rw [lookup_map_const (v - 1) u u' counts]
    by_cases hu : u' = u <;> simp [hu, hl]

/-- The `user_exit` update succeeds whenever the user's count is positive. -/
theorem userExitCounts_ok (counts : List (String × ℤ)) (u : String)
    (h : 0 < userCount counts u) :
    ∃ counts2, userExitCounts counts u = .ok counts2 := by
  unfold userCount at h
  cases hl : counts.lookup u with
  | none =>
    rw [hl] at h
    simp at h
  | some v =>
    refine ⟨counts.map (fun p => if p.1 = u then (p.1, v - 1) else p), ?_⟩
    simp [userExitCounts, hl]

/-- Replacing one known element changes the filtered length according to the
membership of the old and the new element. -/
theorem filter_length_set (p : Conn → Bool) (l : List Conn) (i : ℕ) (c c' : Conn)
    (h : l.get? i = some c) :
    ((l.set i c').filter p).length + (if p c = true then 1 else 0)
      = (l.filter p).length + (if p c' = true then 1 else 0) := by
  induction l generalizing i with
  | nil => cases h
  | cons x t ih =>
    cases i with
    | zero =>
      have hx : x = c := by simpa using h
      subst hx
      by_cases hc : p x = true <;> by_cases hc' : p c' = true <;>
        simp [List.filter_cons, hc, hc'] <;> omega
    | succ j =>
      have hrec := ih j h
      by_cases hx : p x = true <;> simp [List.filter_cons, hx] <;> omega

/-- Updating the element at a valid index is seen by a lookup at the index. -/
theorem get?_set_self {α : Type} (l : List α) (i : ℕ) (c a : α)
    (h : l.get? i = some c) : (l.set i a).get? i = some a := by
  induction l generalizing i with
  | nil => cases h
  | cons x t ih =>
    cases i with
    | zero => rfl
    | succ j => exact ih j h

/-- The empty manager state satisfies the counting invariant. -/
theorem emptyManager_inv : sysInv emptyManager := by
  constructor
  · intro u
    simp [emptyManager, userCount, List.lookup]
  · intro c hc
    simp [emptyManager] at hc

/-- Admitting a fresh connection preserves the counting invariant. -/
theorem accept_inv (sys : ManagerState) (hinv : sysInv sys) :
    sysInv ⟨sys.conns ++ [freshConn], sys.counts⟩ := by
  constructor
  · intro u
    have hcold := hinv.1 u
    simp only [List.filter_append] at *
    simp [freshConn, hcold]
  · intro c hc
    rcases List.mem_append.mp hc with hmem | hmem
    · exact hinv.2 c hmem
    · simp only [List.mem_singleton] at hmem
      subst hmem
      refine ⟨by simp [freshConn], by simp [freshConn], by simp [freshConn],
        fun _ => by simp [freshConn]⟩

/-- `Connection.close` preserves the counting invariant. -/
theorem closeConn_inv (sys sys' : ManagerState) (i : ℕ)
    (hinv : sysInv sys) (h : closeConn sys i = .ok sys') : sysInv sys' := by
  unfold closeConn at h
  cases hg : sys.conns.get? i with
  | none =>
    simp only [hg, Except.ok.injEq] at h
    subst h
    exact hinv
  | some c =>
    simp only [hg] at h
    by_cases ha : c.alive = true
    · simp only [ha, Bool.not_true] at h
      simp only [Bool.false_eq_true, if_false] at h
      cases hu : c.user with
      | some u =>
        simp only [hu] at h
        obtain ⟨counts2, hue, h2⟩ := exceptBind_ok h
        simp only [Except.ok.injEq] at h2
        subst h2
        obtain ⟨hc1, hc2, hc3, hc4⟩ := hinv.2 c (List.get?_mem hg)
        constructor
        · intro u'
          dsimp only
          have hcount2 := userCount_exit sys.counts counts2 u u' hue
          have hfls := filter_length_set (fun d => decide (d.user = some u'))
            sys.conns i c
            { c with alive := false, user := none, exits := c.exits + 1 } hg
          have hcold := hinv.1 u'
          simp only [hu] at hfls
          by_cases huu : u' = u
          · simp [huu] at hcount2 hfls hcold ⊢
            omega
          · simp [huu] at hcount2
            simp [Ne.symm huu] at hfls
            omega
        · intro d hd
          rcases List.mem_or_eq_of_mem_set hd with hmem | rfl
          · exact hinv.2 d hmem
          · have hen : c.enters = c.exits + 1 := by simpa [hu] using hc2
            refine ⟨by simp, by simp; omega, by simpa using hc3,
              fun hfalse => by simp at hfalse⟩
      | none =>
        simp only [hu, Except.ok.injEq] at h
        subst h
        constructor
        · intro u'
          have hfls := filter_length_set (fun d => decide (d.user = some u'))
            sys.conns i c { c with alive := false } hg
          have hcold := hinv.1 u'
          simp only [hu] at hfls
          simp at hfls
          dsimp only
          omega
        · intro d hd
          rcases List.mem_or_eq_of_mem_set hd with hmem | rfl
          · exact hinv.2 d hmem
          · obtain ⟨-, hc2, hc3, -⟩ := hinv.2 c (List.get?_mem hg)
            refine ⟨by simp [hu], ?_, by simpa using hc3,
              fun hfalse => by simp at hfalse⟩
            simpa [hu] using hc2
    · simp only [Bool.not_eq_true] at ha
      simp only [ha, Bool.not_false, if_true, Except.ok.injEq] at h
      subst h
      exact hinv

/-- `Connection.tick` preserves the counting invariant. -/
theorem tickConn_inv (maxConn : ℤ) (sys sys' : ManagerState) (i : ℕ)
    (env : TickEnv) (hinv : sysInv sys)
    (h : tickConn maxConn sys i env = .ok sys') : sysInv sys' := by
  unfold tickConn at h
  cases hg : sys.conns.get? i with
  | none =>
    simp only [hg, Except.ok.injEq] at h
    subst h
    exact hinv
  | some c =>
    simp only [hg] at h
    by_cases ha : c.alive = true
    · simp only [ha, Bool.not_true, Bool.false_eq_true, if_false] at h
      cases hu : c.user with
      | some u0 =>
        simp only [hu] at h
        by_cases hn : env.normalClose = true
        · rw [if_pos hn] at h
          exact closeConn_inv sys sys' i hinv h
        · rw [if_neg hn] at h
          simp only [Except.ok.injEq] at h
          subst h
          exact hinv
      | none =>
        simp only [hu] at h
        by_cases hs : c.saltSent = true
        · rw [if_pos hs] at h
          obtain ⟨outcome, hout, h2⟩ := exceptBind_ok h
          cases outcome with
          | pending =>
            simp only [Except.ok.injEq] at h2
            subst h2
            exact hinv
          | closed r => exact closeConn_inv sys sys' i hinv h2
          | rejectedAndClosed r cr => exact closeConn_inv sys sys' i hinv h2
          | accepted u =>
            simp only [Except.ok.injEq] at h2
            subst h2
            obtain ⟨hc1, hc2, hc3, hc4⟩ := hinv.2 c (List.get?_mem hg)
            constructor
            · intro u'
              dsimp only
              have henter := userCount_enter sys.counts u u'
              have hfls := filter_length_set (fun d => decide (d.user = some u'))
                sys.conns i c
                { c with user := some u, enters := c.enters + 1 } hg
              have hcold := hinv.1 u'
              simp only [hu, ha] at hfls
              by_cases huu : u' = u
              · simp [huu] at henter hfls hcold ⊢
                omega
              · simp [huu] at henter
                simp [Ne.symm huu] at hfls
                omega
            · intro d hd
              rcases List.mem_or_eq_of_mem_set hd with hmem | rfl
              · exact hinv.2 d hmem
              · have hex : c.exits = 0 := hc4 ha
                have hen : c.enters = 0 := by simp [hu] at hc2; omega
                refine ⟨fun _ => rfl, by simp; omega,
                  by simp; omega, fun hal => by simp; omega⟩
        · rw [if_neg hs] at h
          simp only [Except.ok.injEq] at h
          subst h
          constructor
          · intro u'
            have hfls := filter_length_set (fun d => decide (d.user = some u'))
              sys.conns i c { c with saltSent := true } hg
            have hcold := hinv.1 u'
            simp only [hu, ha] at hfls
            simp at hfls
            dsimp only
            omega
          · intro d hd
            rcases List.mem_or_eq_of_mem_set hd with hmem | rfl
            · exact hinv.2 d hmem
            · obtain ⟨-, hc2, hc3, hc4⟩ := hinv.2 c (List.get?_mem hg)
              refine ⟨by simp, ?_, hc3, fun _ => hc4 ha⟩
              simp [hu] at hc2
              simpa using hc2
    · simp only [Bool.not_eq_true] at ha
      simp only [ha, Bool.not_false, if_true, Except.ok.injEq] at h
      subst h
      exact hinv

/-- Every manager run from an invariant state ends in an invariant state. -/
theorem foldlM_sysInv (maxConn : ℤ) (ops : List SysOp) :
    ∀ sys sys' : ManagerState, sysInv sys →
      ops.foldlM (applySysOp maxConn) sys = .ok sys' → sysInv sys' := by
  induction ops with
  | nil =>
    intro sys sys' hinv h
    simp only [List.foldlM_nil] at h
    cases h
    exact hinv
  | cons op t ih =>
    intro sys sys' hinv h
    rw [List.foldlM_cons] at h
    obtain ⟨mid, h1, h2⟩ := exceptBind_ok h
    refine ih mid sys' ?_ h2
    cases op with
    | accept =>
      simp only [applySysOp, Except.ok.injEq] at h1
      subst h1
      exact accept_inv sys hinv
    | tick i env => exact tickConn_inv maxConn sys mid i env hinv h1
    | close i => exact closeConn_inv sys mid i hinv h1

/-- `Connection.close` is idempotent. -/
theorem closeConn_idem (sys sys2 : ManagerState) (i : ℕ)
    (h : closeConn sys i = .ok sys2) : closeConn sys2 i = .ok sys2 := by
  unfold closeConn at h
  cases hg : sys.conns.get? i with
  | none =>
    simp only [hg, Except.ok.injEq] at h
    subst h
    have hg' : sys.conns[i]? = none := by simpa using hg
    simp [closeConn, hg']
  | some c =>
    simp only [hg] at h
    by_cases ha : c.alive = true
    · simp only [ha, Bool.not_true, Bool.false_eq_true, if_false] at h
      cases hu : c.user with
      | some u =>
        simp only [hu] at h
        obtain ⟨counts2, hue, h2⟩ := exceptBind_ok h
        simp only [Except.ok.injEq] at h2
        subst h2
        have hg2 : (sys.conns.set i
            { c with alive := false, user := none, exits := c.exits + 1 })[i]?
              = some { c with alive := false, user := none, exits := c.exits + 1 } := by
          simpa using get?_set_self sys.conns i c
            { c with alive := false, user := none, exits := c.exits + 1 } hg
        simp [closeConn, hg2]
      | none =>
        simp only [hu, Except.ok.injEq] at h
        subst h
        have hg2 : (sys.conns.set i
            { c with alive := false, user := none })[i]?
              = some { c with alive := false, user := none } := by
          have h3 := get?_set_self sys.conns i c { c with alive := false } hg
          rw [hu] at h3
          simpa using h3
        simp [closeConn, hg2]
    · simp only [Bool.not_eq_true] at ha
      simp only [ha, Bool.not_false, if_true, Except.ok.injEq] at h
      subst h
      have hg' : sys.conns[i]? = some c := by simpa using hg
      simp [closeConn, hg', ha]

/-- `Connection.close` succeeds from every state satisfying the invariant:
`user_exit` never hits a missing count entry. -/
theorem closeConn_total (sys : ManagerState) (i : ℕ) (hinv : sysInv sys) :
    ∃ sys2, closeConn sys i = .ok sys2 := by
  cases hg : sys.conns.get? i with
  | none =>
    have hg' : sys.conns[i]? = none := by simpa using hg
    exact ⟨sys, by simp [closeConn, hg']⟩
  | some c =>
    by_cases ha : c.alive = true
    · cases hu : c.user with
      | some u =>
        have hpos : 0 < userCount sys.counts u := by
          rw [hinv.1 u]
          have hmem : c ∈ sys.conns.filter (fun d => decide (d.user = some u)) :=
            List.mem_filter.mpr ⟨List.get?_mem hg, by simp [hu]⟩
          exact_mod_cast List.length_pos_of_mem hmem
        obtain ⟨counts2, hok⟩ := userExitCounts_ok sys.counts u hpos
        have hg' : sys.conns[i]? = some c := by simpa using hg
        refine ⟨⟨sys.conns.set i
          { c with alive := false, user := none, exits := c.exits + 1 }, counts2⟩, ?_⟩
        simp [closeConn, hg', ha, hu, hok]
      | none =>
        have hg' : sys.conns[i]? = some c := by simpa using hg
        refine ⟨⟨sys.conns.set i { c with alive := false, user := none },
          sys.counts⟩, ?_⟩
        simp [closeConn, hg', ha, hu]
    · simp only [Bool.not_eq_true] at ha
      have hg' : sys.conns[i]? = some c := by simpa using hg
      exact ⟨sys, by simp [closeConn, hg', ha]⟩

/-- C9: over every sequence of manager events (accepting connections, ticking
them through the login handshake and normal operation, closing them) that
returns normally, every per-user connection count is non-negative; for every
connection the `user_exit` hook has run exactly once precisely when
`user_enter` ran and the connection is closed, and never more than once; and
closing any connection of the resulting state succeeds (no `KeyError` from
`user_exit`) and is idempotent. -/
theorem C9_enter_exit_balance (maxConn : ℤ) (ops : List SysOp)
    (sys' : ManagerState) (hrun : runSys maxConn ops = .ok sys') :
    (∀ u, 0 ≤ userCount sys'.counts u) ∧
    (∀ c ∈ sys'.conns, c.exits ≤ c.enters ∧ c.enters ≤ 1 ∧
      (c.exits = 1 ↔ c.enters = 1 ∧ c.alive = false)) ∧
    (∀ i, ∃ sys2, closeConn sys' i = .ok sys2 ∧ closeConn sys2 i = .ok sys2) := by
  unfold runSys at hrun
  have hinv : sysInv sys' :=
    foldlM_sysInv maxConn ops emptyManager sys' emptyManager_inv hrun
  refine ⟨?_, ?_, ?_⟩
  · intro u
    rw [hinv.1 u]
    omega
  · intro c hc
    obtain ⟨hc1, hc2, hc3, hc4⟩ := hinv.2 c hc
    by_cases hs : c.user.isSome = true
    · have halive := hc1 hs
      simp [hs] at hc2
      refine ⟨by omega, hc3, ?_, ?_⟩
      · intro hex
        have := hc4 halive
        omega
      · rintro ⟨-, hal⟩
        rw [halive] at hal
        cases hal
    · simp [hs] at hc2
      refine ⟨by omega, hc3, ?_, ?_⟩
      · intro hex
        refine ⟨by omega, ?_⟩
        by_cases hal : c.alive = true
        · have := hc4 hal
          omega
        · simpa [Bool.not_eq_true] using hal
      · rintro ⟨hen, -⟩
        omega
  · intro i
    obtain ⟨sys2, hok⟩ := closeConn_total sys' i hinv
    exact ⟨sys2, hok, closeConn_idem sys' sys2 i hok⟩

/-- Witness for C9: after a run in which user `m` logs in and the connection
is closed twice, the count of `m` is still non-negative. -/
theorem C9_enter_exit_balance_witness :
    (0 : ℤ) ≤ userCount demoSys.counts "m" :=
  (C9_enter_exit_balance 1 demoOps demoSys rfl).1 "m"


/-- The binary32 pattern fits in four bytes. -/
theorem f64ToF32bits_lt (w : ℕ) : f64ToF32bits w < 2 ^ 32 := by
  unfold f64ToF32bits
  exact Nat.mod_lt _ (by norm_num)

/-- Four little-endian bytes of a 32-bit value decode to the value. -/
theorem bytesToNat_natToBytes4 (n : ℕ) (h : n < 2 ^ 32) :
    bytesToNat (natToBytes 4 n) = n := by
  rw [bytesToNat_natToBytes]
  have h2 : (2 : ℕ) ^ (8 * 4) = 2 ^ 32 := by norm_num
  rw [h2]
  exact Nat.mod_eq_of_lt h

/-- Eight little-endian bytes of a 64-bit value decode to the value. -/
theorem bytesToNat_natToBytes8 (n : ℕ) (h : n < 2 ^ 64) :
    bytesToNat (natToBytes 8 n) = n := by
  rw [bytesToNat_natToBytes]
  have h2 : (2 : ℕ) ^ (8 * 8) = 2 ^ 64 := by norm_num
  rw [h2]
  exact Nat.mod_eq_of_lt h

/-- The signed 32-bit encode/decode roundtrip on in-range integers. -/
theorem bytesToInt32_int32ToBytes (i : ℤ) (h1 : -(2 ^ 31) ≤ i) (h2 : i < 2 ^ 31) :
    bytesToInt32 (int32ToBytes i) = i := by
  have hkey : i.emod (2 ^ 32) = if 0 ≤ i then i else i + 2 ^ 32 := by
    by_cases hs : 0 ≤ i
    · rw [if_pos hs]
      exact Int.emod_eq_of_lt hs (by omega)
    · rw [if_neg hs]
      have hshift : (i + 2 ^ 32 * 1).emod (2 ^ 32) = i.emod (2 ^ 32) :=
        Int.add_mul_emod_self_left i (2 ^ 32) 1
      rw [show i + (2 : ℤ) ^ 32 = i + 2 ^ 32 * 1 by ring, ← hshift]
      exact Int.emod_eq_of_lt (by omega) (by omega)
  have hp : (2 : ℕ) ^ (8 * 4) = 2 ^ 32 := by norm_num
  simp only [bytesToInt32, int32ToBytes, bytesToNat_natToBytes, hkey, hp]
  by_cases hs : 0 ≤ i
  · rw [if_pos hs]
    rw [Nat.mod_eq_of_lt (by omega), if_pos (by omega)]
    omega
  · rw [if_neg hs]
    rw [Nat.mod_eq_of_lt (by omega), if_neg (by omega)]
    omega

/-- ASCII code points are Unicode scalar values. -/
theorem scalarOk_ascii (c : ℕ) (h : c < 128) : scalarOk c = true := by
  have hA : decide (c < 0x110000) = true := decide_eq_true (by omega)
  have hB : decide (0xD800 ≤ c) = false := decide_eq_false (by omega)
  simp [scalarOk, hA, hB]

/-- A list of ASCII code points passes the surrogate check. -/
theorem all_scalarOk_ascii (cs : List ℕ)
    (h : cs.all (fun c => decide (c < 128)) = true) : cs.all scalarOk = true := by
  rw [List.all_eq_true] at h ⊢
  intro c hc
  exact scalarOk_ascii c (by simpa using h c hc)

/-- UTF-8 encoding of one ASCII code point. -/
theorem utf8Char_ascii (c : ℕ) (h : c < 128) : utf8Char c = [c] := by
  unfold utf8Char
  rw [if_pos (show c < 0x80 by omega)]

/-- UTF-8 encoding is the identity on ASCII strings. -/
theorem utf8Encode_ascii (cs : List ℕ)
    (h : cs.all (fun c => decide (c < 128)) = true) : utf8Encode cs = cs := by
  induction cs with
  | nil => rfl
  | cons c cs ih =>
    simp only [List.all_cons, Bool.and_eq_true, decide_eq_true_eq] at h
    show utf8Char c ++ utf8Encode cs = c :: cs
    rw [ih h.2, utf8Char_ascii c h.1]
    rfl

/-- The fuel-driven decoder is the identity on ASCII strings. -/
theorem utf8DecodeFuel_ascii (cs : List ℕ)
    (h : cs.all (fun c => decide (c < 128)) = true) :
    utf8DecodeFuel cs.length cs = some cs := by
  induction cs with
  | nil => rfl
  | cons c cs ih =>
    simp only [List.all_cons, Bool.and_eq_true, decide_eq_true_eq] at h
    simp only [List.length_cons, utf8DecodeFuel]
    rw [if_pos (show c < 0x80 by omega), ih h.2]
    rfl

/-- Strict UTF-8 decoding is the identity on ASCII strings. -/
theorem utf8Decode_ascii (cs : List ℕ)
    (h : cs.all (fun c => decide (c < 128)) = true) : utf8Decode cs = some cs := by
  unfold utf8Decode
  exact utf8DecodeFuel_ascii cs h

/-- Padding/truncating to the exact length is the identity. -/
theorem padTrunc_self (bs : List ℕ) : padTrunc bs.length bs = bs := by
  simp [padTrunc]

/-- Elementwise `float()` on a list of floats is the identity. -/
theorem coerceFloatList_id (xs : List PyVal)
    (h : ∀ x ∈ xs, ∃ w, x = PyVal.pFloat w) : coerceFloatList xs = .ok xs := by
  induction xs with
  | nil => rfl
  | cons x xs ih =>
    obtain ⟨w, rfl⟩ := h x (List.mem_cons_self x xs)
    have ht := ih (fun y hy => h y (List.mem_cons_of_mem _ hy))
    show (do
      let w2 ← pyFloatOf (PyVal.pFloat w)
      let rest ← coerceFloatList xs
      Except.ok (PyVal.pFloat w2 :: rest)) = Except.ok (PyVal.pFloat w :: xs)
    rw [ht]
    rfl

/-- A `valOk` float-vector value coerces to itself. -/
theorem coerce_of_valOk (k : Kind) (v : PyVal) (h : valOk k v = true) :
    coerceKind k v = .ok v := by
  cases k with
  | kInt => cases v <;> first | rfl | simp [valOk] at h
  | kFloat => cases v <;> first | rfl | simp [valOk] at h
  | kStr => cases v <;> first | rfl | simp [valOk] at h
  | kBytes => cases v <;> first | rfl | simp [valOk] at h
  | kF32v =>
    cases v with
    | pList xs =>
      simp only [valOk, Bool.and_eq_true] at h
      have hsh : ∀ x ∈ xs, ∃ w, x = PyVal.pFloat w := by
        intro x hx
        have hx2 := List.all_eq_true.mp h.1 x hx
        cases x <;> simp_all
      rw [show coerceKind Kind.kF32v (PyVal.pList xs)
          = (coerceFloatList xs).map PyVal.pList from rfl,
        coerceFloatList_id xs hsh]
      rfl
    | pNone => exact absurd h (by simp [valOk])
    | pInt i => exact absurd h (by simp [valOk])
    | pFloat w => exact absurd h (by simp [valOk])
    | pStr cs => exact absurd h (by simp [valOk])
    | pBytes bs => exact absurd h (by simp [valOk])
  | kF64v =>
    cases v with
    | pList xs =>
      simp only [valOk, Bool.and_eq_true] at h
      have hsh : ∀ x ∈ xs, ∃ w, x = PyVal.pFloat w := by
        intro x hx
        have hx2 := List.all_eq_true.mp h.1 x hx
        cases x <;> simp_all
      rw [show coerceKind Kind.kF64v (PyVal.pList xs)
          = (coerceFloatList xs).map PyVal.pList from rfl,
        coerceFloatList_id xs hsh]
      rfl
    | pNone => exact absurd h (by simp [valOk])
    | pInt i => exact absurd h (by simp [valOk])
    | pFloat w => exact absurd h (by simp [valOk])
    | pStr cs => exact absurd h (by simp [valOk])
    | pBytes bs => exact absurd h (by simp [valOk])

/-- In a duplicate-free association list every entry is found by its key. -/
theorem lookup_self_of_nodup {β : Type} :
    ∀ (l : List (String × β)), (l.map Prod.fst).Nodup →
      ∀ p ∈ l, l.lookup p.1 = some p.2 := by
  intro l
  induction l with
  | nil => intro _ p hp; cases hp
  | cons q t ih =>
    intro hnd p hp
    simp only [List.map_cons, List.nodup_cons] at hnd
    rcases List.mem_cons.mp hp with rfl | hmem
    · rw [lookup_cons_eq, if_pos rfl]
    · rw [lookup_cons_eq]
      have hne : p.1 ≠ q.1 := by
        intro hc
        have hin : p.1 ∈ t.map Prod.fst := List.mem_map_of_mem Prod.fst hmem
        rw [hc] at hin
        exact hnd.1 hin
      rw [if_neg hne]
      exact ih hnd.2 p hmem

/-- The replacement map of `setValue` leaves lists without the key unchanged. -/
theorem map_noname {β : Type} (n : String) (v : β) :
    ∀ (l : List (String × β)), l.lookup n = none →
      l.map (fun p => if p.1 = n then (p.1, v) else p) = l := by
  intro l
  induction l with
  | nil => intro _; rfl
  | cons q t ih =>
    intro h
    rw [lookup_cons_eq] at h
    by_cases hq : n = q.1
    · rw [if_pos hq] at h
      cases h
    · rw [if_neg hq] at h
      simp only [List.map_cons, ih h]
      rw [if_neg (fun hc => hq hc.symm)]

/-- The initial `pNone` slots have no entry for a foreign name. -/
theorem lookup_pnone_none (args2 : List (String × Kind)) (n : String)
    (h : n ∉ args2.map Prod.fst) :
    (args2.map (fun a => (a.1, PyVal.pNone))).lookup n = none := by
  induction args2 with
  | nil => rfl
  | cons a t ih =>
    simp only [List.map_cons, List.mem_cons, not_or] at h
    rw [List.map_cons, lookup_cons_eq, if_neg h.1]
    exact ih h.2

/-- `setValue` on the name of the first `pNone` slot after the written part. -/
theorem setValue_fill (done rest : List (String × PyVal)) (n : String) (v : PyVal)
    (hdone : done.lookup n = none) (hrest : rest.lookup n = none) :
    setValue (done ++ (n, PyVal.pNone) :: rest) n v = done ++ (n, v) :: rest := by
  unfold setValue
  have hl : (done ++ (n, PyVal.pNone) :: rest).lookup n = some PyVal.pNone := by
    simp [lookup_append_cases, hdone, lookup_cons_eq]
  rw [hl]
  simp only [Option.isSome_some, if_true]
  rw [List.map_append, List.map_cons]
  rw [map_noname n v done hdone, map_noname n v rest hrest]
  simp

/-- Aligned argument and value lists agree pairwise on names and validity. -/
theorem argsMatch_zip :
    ∀ (args : List (String × Kind)) (vals : List (String × PyVal)),
      argsMatch args vals = true →
      ∀ pq ∈ args.zip vals, pq.2.1 = pq.1.1 ∧ valOk pq.1.2 pq.2.2 = true := by
  intro args
  induction args with
  | nil => intro vals h pq hpq; simp at hpq
  | cons a args ih =>
    intro vals h pq hpq
    cases vals with
    | nil => simp at hpq
    | cons pv vals =>
      obtain ⟨n, k⟩ := a
      obtain ⟨n', v⟩ := pv
      simp only [argsMatch, Bool.and_eq_true, beq_iff_eq] at h
      rcases List.mem_cons.mp (by simpa [List.zip_cons_cons] using hpq) with rfl | hmem
      · exact ⟨h.1.1, h.1.2⟩
      · exact ih vals h.2 pq hmem

/-- Aligned lists carry equal name sequences. -/
theorem argsMatch_names :
    ∀ (args : List (String × Kind)) (vals : List (String × PyVal)),
      argsMatch args vals = true → vals.map Prod.fst = args.map Prod.fst := by
  intro args
  induction args with
  | nil =>
    intro vals h
    cases vals with
    | nil => rfl
    | cons p t => simp [argsMatch] at h
  | cons a args ih =>
    intro vals h
    cases vals with
    | nil => simp [argsMatch] at h
    | cons pv vals =>
      obtain ⟨n, k⟩ := a
      obtain ⟨n', v⟩ := pv
      simp only [argsMatch, Bool.and_eq_true, beq_iff_eq] at h
      simp [h.1.1, ih vals h.2]

/-- The `Message.set` fold writes aligned updates into the pre-initialised
slots in order, leaving already-written entries alone. -/
theorem msgSet_go (d : MessageDefinition) :
    ∀ (args2 : List (String × Kind)) (vals2 done : List (String × PyVal)),
      argsMatch args2 vals2 = true →
      (args2.map Prod.fst).Nodup →
      (∀ q ∈ args2, d.args.lookup q.1 = some q.2) →
      (∀ q ∈ args2, done.lookup q.1 = none) →
      msgSet ⟨d, done ++ args2.map (fun a => (a.1, PyVal.pNone))⟩ vals2
        = .ok ⟨d, done ++ vals2⟩ := by
  intro args2
  induction args2 with
  | nil =>
    intro vals2 done hm hnd hfull hdisj
    cases vals2 with
    | nil => simp [msgSet]
    | cons p t => simp [argsMatch] at hm
  | cons a args2 ih =>
    obtain ⟨n, k⟩ := a
    intro vals2 done hm hnd hfull hdisj
    cases vals2 with
    | nil => simp [argsMatch] at hm
    | cons pv vals2 =>
      obtain ⟨n', v⟩ := pv
      simp only [argsMatch, Bool.and_eq_true, beq_iff_eq] at hm
      obtain ⟨⟨hn', hv⟩, hm2⟩ := hm
      subst hn'
      simp only [List.map_cons, List.nodup_cons] at hnd
      obtain ⟨hnotin, hnd2⟩ := hnd
      unfold msgSet
      rw [List.map_cons, List.foldlM_cons]
      dsimp only
      simp only [hfull (n', k) (List.mem_cons_self _ _)]
      rw [coerce_of_valOk k v hv]
      simp only [bindOk_eq]
      rw [setValue_fill done (args2.map (fun a => (a.1, PyVal.pNone))) n' v
        (hdisj (n', k) (List.mem_cons_self _ _)) (lookup_pnone_none args2 n' hnotin)]
      have hih := ih vals2 (done ++ [(n', v)]) hm2 hnd2
        (fun q hq => hfull q (List.mem_cons_of_mem _ hq))
        (fun q hq => by
          have hq1 : q.1 ≠ n' := by
            intro hc
            have hin : q.1 ∈ args2.map Prod.fst := List.mem_map_of_mem Prod.fst hq
            rw [hc] at hin
            exact hnotin hin
          have hb : (q.1 == n') = false := beq_eq_false_iff_ne.mpr hq1
          simp [lookup_append_cases, hdisj q (List.mem_cons_of_mem _ hq),
            lookup_cons_eq, hq1, List.lookup, hb])
      unfold msgSet at hih
      dsimp only at hih
      simpa [List.append_assoc] using hih

/-- Unpacked values are installed verbatim by `Message.set` on a fresh
message. -/
theorem msgSet_canonical (d : MessageDefinition) (vals : List (String × PyVal))
    (hnd : (d.args.map Prod.fst).Nodup)
    (hm : argsMatch d.args vals = true) :
    msgSet (mkMessage d []) vals = .ok ⟨d, vals⟩ := by
  have hinit : mkMessage d []
      = ⟨d, [] ++ d.args.map (fun a => (a.1, PyVal.pNone))⟩ := by
    simp [mkMessage, List.lookup]
  rw [hinit]
  have hgo := msgSet_go d d.args vals [] hm hnd
    (fun q hq => lookup_self_of_nodup d.args hnd q hq) (fun q hq => rfl)
  simpa using hgo

/-- The packed binary32 vector parses back to the original float values. -/
theorem parseF32s_roundtrip :
    ∀ (xs : List PyVal),
      (xs.all fun x => match x with
        | .pFloat w => decide (w < 2 ^ 64) && decide (f32ToF64bits (f64ToF32bits w) = w)
        | _ => false) = true →
      ∃ ws, pyFloatList xs = .ok ws ∧
        ∀ extra, parseF32s xs.length
            ((ws.map (fun w => natToBytes 4 (f64ToF32bits w))).flatten ++ extra)
          = .ok (xs, extra) := by
  intro xs
  induction xs with
  | nil => intro h; exact ⟨[], rfl, fun extra => rfl⟩
  | cons x xs ih =>
    intro h
    simp only [List.all_cons, Bool.and_eq_true] at h
    obtain ⟨hx, hrest⟩ := h
    cases x with
    | pFloat w =>
      simp only [Bool.and_eq_true, decide_eq_true_eq] at hx
      obtain ⟨ws, hpf, hparse⟩ := ih hrest
      refine ⟨w :: ws, ?_, ?_⟩
      · show (do
          let w2 ← pyFloatOf (PyVal.pFloat w)
          let rest ← pyFloatList xs
          Except.ok (w2 :: rest)) = Except.ok (w :: ws)
        rw [hpf]
        rfl
      · intro extra
        have hassoc :
            ((w :: ws).map (fun u => natToBytes 4 (f64ToF32bits u))).flatten ++ extra
              = natToBytes 4 (f64ToF32bits w)
                ++ ((ws.map (fun u => natToBytes 4 (f64ToF32bits u))).flatten
                    ++ extra) := by
          simp
        have hlen : (natToBytes 4 (f64ToF32bits w)).length = 4 := natToBytes_length 4 _
        rw [List.length_cons, hassoc]
        simp only [parseF32s]
        rw [if_pos (by rw [List.length_append, hlen]; omega)]
        rw [List.take_left' hlen, List.drop_left' hlen]
        rw [hparse extra]
        simp only [bindOk_eq]
        rw [bytesToNat_natToBytes4 _ (f64ToF32bits_lt w), hx.2]
    | pNone => simp at hx
    | pInt i => simp at hx
    | pStr cs => simp at hx
    | pBytes bs => simp at hx
    | pList l => simp at hx

/-- The packed binary64 vector parses back to the original float values. -/
theorem parseF64s_roundtrip :
    ∀ (xs : List PyVal),
      (xs.all fun x => match x with
        | .pFloat w => decide (w < 2 ^ 64)
        | _ => false) = true →
      ∃ ws, pyFloatList xs = .ok ws ∧
        ∀ extra, parseF64s xs.length ((ws.map (natToBytes 8)).flatten ++ extra)
          = .ok (xs, extra) := by
  intro xs
  induction xs with
  | nil => intro h; exact ⟨[], rfl, fun extra => rfl⟩
  | cons x xs ih =>
    intro h
    simp only [List.all_cons, Bool.and_eq_true] at h
    obtain ⟨hx, hrest⟩ := h
    cases x with
    | pFloat w =>
      simp only [decide_eq_true_eq] at hx
      obtain ⟨ws, hpf, hparse⟩ := ih hrest
      refine ⟨w :: ws, ?_, ?_⟩
      · show (do
          let w2 ← pyFloatOf (PyVal.pFloat w)
          let rest ← pyFloatList xs
          Except.ok (w2 :: rest)) = Except.ok (w :: ws)
        rw [hpf]
        rfl
      · intro extra
        have hassoc : ((w :: ws).map (natToBytes 8)).flatten ++ extra
            = natToBytes 8 w ++ ((ws.map (natToBytes 8)).flatten ++ extra) := by
          simp
        have hlen : (natToBytes 8 w).length = 8 := natToBytes_length 8 _
        rw [List.length_cons, hassoc]
        simp only [parseF64s]
        rw [if_pos (by rw [List.length_append, hlen]; omega)]
        rw [List.take_left' hlen, List.drop_left' hlen]
        rw [hparse extra]
        simp only [bindOk_eq]
        rw [bytesToNat_natToBytes8 _ hx]
    | pNone => simp at hx
    | pInt i => simp at hx
    | pStr cs => simp at hx
    | pBytes bs => simp at hx
    | pList l => simp at hx


/-- Core pack/unpack roundtrip over an aligned argument/value list: packing
produces the vector parts and the fixed bytes, the fixed bytes parse back to
the fixed values, and the assembled arguments are exactly the original
values. -/
theorem roundtrip_core (get : String → Option PyVal) :
    ∀ (args : List (String × Kind)) (vals : List (String × PyVal)),
      argsMatch args vals = true →
      (∀ pq ∈ args.zip vals, get pq.1.1 = some pq.2.2) →
      ∃ (vps : List VecPart) (fixed : List ℕ) (fvs : List FixedVal),
        packVectors args get = .ok vps ∧
        packFixed args get vps = .ok fixed ∧
        (∀ extra, parseFixed args (fixed ++ extra) = .ok (fvs, extra)) ∧
        buildArgs args fvs ((vps.map VecPart.payload).flatten) = .ok vals := by
  intro args
  induction args with
  | nil =>
    intro vals hm hget
    cases vals with
    | nil => exact ⟨[], [], [], rfl, rfl, fun extra => rfl, rfl⟩
    | cons p t => simp [argsMatch] at hm
  | cons a args ih =>
    obtain ⟨nm, k⟩ := a
    intro vals hm hget
    cases vals with
    | nil => simp [argsMatch] at hm
    | cons pv vals =>
      obtain ⟨n', v⟩ := pv
      simp only [argsMatch, Bool.and_eq_true, beq_iff_eq] at hm
      obtain ⟨⟨hn', hv⟩, hm2⟩ := hm
      subst hn'
      have hgetn : get n' = some v := by
        have hh := hget ((n', k), (n', v)) (by simp [List.zip_cons_cons])
        simpa using hh
      have hget2 : ∀ pq ∈ args.zip vals, get pq.1.1 = some pq.2.2 := by
        intro pq hpq
        exact hget pq (by simp [List.zip_cons_cons, hpq])
      obtain ⟨vps, fixed, fvs, h1, h2, h3, h4⟩ := ih vals hm2 hget2
      cases k with
      | kInt =>
        cases v with
        | pInt i =>
          simp only [valOk, decide_eq_true_eq] at hv
          refine ⟨vps, int32ToBytes i ++ fixed, .fInt i :: fvs, ?_, ?_, ?_, ?_⟩
          · simpa only [packVectors] using h1
          · simp only [packFixed, getValue, hgetn, bindOk_eq]
            rw [if_pos hv, h2]
            rfl
          · intro extra
            have hl4 : (int32ToBytes i).length = 4 := natToBytes_length 4 _
            rw [List.append_assoc]
            simp only [parseFixed]
            rw [if_pos (by rw [List.length_append, hl4]; omega)]
            rw [List.take_left' hl4, List.drop_left' hl4, h3 extra]
            simp only [bindOk_eq]
            rw [bytesToInt32_int32ToBytes i hv.1 hv.2]
          · simp only [buildArgs]
            rw [h4]
            rfl
        | pNone => simp [valOk] at hv
        | pFloat w => simp [valOk] at hv
        | pStr cs => simp [valOk] at hv
        | pBytes bs => simp [valOk] at hv
        | pList xs => simp [valOk] at hv
      | kFloat =>
        cases v with
        | pFloat w =>
          simp only [valOk, decide_eq_true_eq] at hv
          refine ⟨vps, natToBytes 8 w ++ fixed, .fFloat w :: fvs, ?_, ?_, ?_, ?_⟩
          · simpa only [packVectors] using h1
          · simp only [packFixed, getValue, hgetn, bindOk_eq]
            rw [h2]
            rfl
          · intro extra
            have hl8 : (natToBytes 8 w).length = 8 := natToBytes_length 8 _
            rw [List.append_assoc]
            simp only [parseFixed]
            rw [if_pos (by rw [List.length_append, hl8]; omega)]
            rw [List.take_left' hl8, List.drop_left' hl8, h3 extra]
            simp only [bindOk_eq]
            rw [bytesToNat_natToBytes8 _ hv]
          · simp only [buildArgs]
            rw [h4]
            rfl
        | pNone => simp [valOk] at hv
        | pInt i => simp [valOk] at hv
        | pStr cs => simp [valOk] at hv
        | pBytes bs => simp [valOk] at hv
        | pList xs => simp [valOk] at hv
      | kStr =>
        cases v with
        | pStr cs =>
          simp only [valOk, Bool.and_eq_true, decide_eq_true_eq] at hv
          obtain ⟨hascii, hlen32⟩ := hv
          have hpv : packVector Kind.kStr (PyVal.pStr cs) = .ok ⟨cs.length, cs⟩ := by
            simp only [packVector, pyLen, bindOk_eq]
            rw [if_pos (all_scalarOk_ascii cs hascii)]
            rw [utf8Encode_ascii cs hascii, padTrunc_self]
          refine ⟨⟨cs.length, cs⟩ :: vps, natToBytes 4 cs.length ++ fixed,
            .fLen cs.length :: fvs, ?_, ?_, ?_, ?_⟩
          · simp only [packVectors, getValue, hgetn, bindOk_eq, hpv, h1]
          · simp only [packFixed]
            rw [if_pos (show (VecPart.mk cs.length cs).n < 2 ^ 32 from hlen32), h2]
            rfl
          · intro extra
            have hl4 : (natToBytes 4 cs.length).length = 4 := natToBytes_length 4 _
            rw [List.append_assoc]
            simp only [parseFixed]
            rw [if_pos (by rw [List.length_append, hl4]; omega)]
            rw [List.take_left' hl4, List.drop_left' hl4, h3 extra]
            simp only [bindOk_eq]
            rw [bytesToNat_natToBytes4 _ hlen32]
          · have hvar : ((VecPart.mk cs.length cs :: vps).map VecPart.payload).flatten
                = cs ++ (vps.map VecPart.payload).flatten := by simp
            have htake : (cs ++ (vps.map VecPart.payload).flatten).take cs.length
                = cs := List.take_left' rfl
            have hdrop : (cs ++ (vps.map VecPart.payload).flatten).drop cs.length
                = (vps.map VecPart.payload).flatten := List.drop_left' rfl
            rw [hvar]
            simp only [buildArgs]
            rw [if_pos (by rw [List.length_append]; omega), htake]
            simp only [utf8Decode_ascii cs hascii]
            rw [hdrop, h4]
            rfl
        | pNone => simp [valOk] at hv
        | pInt i => simp [valOk] at hv
        | pFloat w => simp [valOk] at hv
        | pBytes bs => simp [valOk] at hv
        | pList xs => simp [valOk] at hv
      | kBytes =>
        cases v with
        | pBytes bs =>
          simp only [valOk, Bool.and_eq_true, decide_eq_true_eq] at hv
          obtain ⟨hrange, hlen32⟩ := hv
          have hpv : packVector Kind.kBytes (PyVal.pBytes bs) = .ok ⟨bs.length, bs⟩ := by
            simp only [packVector, pyLen, bindOk_eq, padTrunc_self]
          refine ⟨⟨bs.length, bs⟩ :: vps, natToBytes 4 bs.length ++ fixed,
            .fLen bs.length :: fvs, ?_, ?_, ?_, ?_⟩
          · simp only [packVectors, getValue, hgetn, bindOk_eq, hpv, h1]
          · simp only [packFixed]
            rw [if_pos (show (VecPart.mk bs.length bs).n < 2 ^ 32 from hlen32), h2]
            rfl
          · intro extra
            have hl4 : (natToBytes 4 bs.length).length = 4 := natToBytes_length 4 _
            rw [List.append_assoc]
            simp only [parseFixed]
            rw [if_pos (by rw [List.length_append, hl4]; omega)]
            rw [List.take_left' hl4, List.drop_left' hl4, h3 extra]
            simp only [bindOk_eq]
            rw [bytesToNat_natToBytes4 _ hlen32]
          · have hvar : ((VecPart.mk bs.length bs :: vps).map VecPart.payload).flatten
                = bs ++ (vps.map VecPart.payload).flatten := by simp
            have htake : (bs ++ (vps.map VecPart.payload).flatten).take bs.length
                = bs := List.take_left' rfl
            have hdrop : (bs ++ (vps.map VecPart.payload).flatten).drop bs.length
                = (vps.map VecPart.payload).flatten := List.drop_left' rfl
            rw [hvar]
            simp only [buildArgs]
            rw [if_pos (by rw [List.length_append]; omega), htake, hdrop, h4]
            rfl
        | pNone => simp [valOk] at hv
        | pInt i => simp [valOk] at hv
        | pFloat w => simp [valOk] at hv
        | pStr cs => simp [valOk] at hv
        | pList xs => simp [valOk] at hv
      | kF32v =>
        cases v with
        | pList xs =>
          simp only [valOk, Bool.and_eq_true, decide_eq_true_eq] at hv
          obtain ⟨hall, hlen32⟩ := hv
          obtain ⟨ws, hpf, hparse⟩ := parseF32s_roundtrip xs hall
          have hpv : packVector Kind.kF32v (PyVal.pList xs)
              = .ok ⟨xs.length, ((ws.map (fun w => natToBytes 4 (f64ToF32bits w))).flatten)⟩ := by
            simp only [packVector, pyLen, bindOk_eq, hpf]
          refine ⟨⟨xs.length, (ws.map (fun w => natToBytes 4 (f64ToF32bits w))).flatten⟩ :: vps,
            natToBytes 4 xs.length ++ fixed, .fLen xs.length :: fvs, ?_, ?_, ?_, ?_⟩
          · simp only [packVectors, getValue, hgetn, bindOk_eq, hpv, h1]
          · simp only [packFixed]
            rw [if_pos (show (VecPart.mk xs.length
              ((ws.map (fun w => natToBytes 4 (f64ToF32bits w))).flatten)).n < 2 ^ 32
              from hlen32), h2]
            rfl
          · intro extra
            have hl4 : (natToBytes 4 xs.length).length = 4 := natToBytes_length 4 _
            rw [List.append_assoc]
            simp only [parseFixed]
            rw [if_pos (by rw [List.length_append, hl4]; omega)]
            rw [List.take_left' hl4, List.drop_left' hl4, h3 extra]
            simp only [bindOk_eq]
            rw [bytesToNat_natToBytes4 _ hlen32]
          · have hvar : ((VecPart.mk xs.length
                  ((ws.map (fun w => natToBytes 4 (f64ToF32bits w))).flatten) :: vps).map
                  VecPart.payload).flatten
                = (ws.map (fun w => natToBytes 4 (f64ToF32bits w))).flatten
                  ++ (vps.map VecPart.payload).flatten := by simp
            rw [hvar]
            simp only [buildArgs]
            rw [hparse ((vps.map VecPart.payload).flatten)]
            simp only [bindOk_eq]
            rw [h4]
            rfl
        | pNone => simp [valOk] at hv
        | pInt i => simp [valOk] at hv
        | pFloat w => simp [valOk] at hv
        | pStr cs => simp [valOk] at hv
        | pBytes bs => simp [valOk] at hv
      | kF64v =>
        cases v with
        | pList xs =>
          simp only [valOk, Bool.and_eq_true, decide_eq_true_eq] at hv
          obtain ⟨hall, hlen32⟩ := hv
          obtain ⟨ws, hpf, hparse⟩ := parseF64s_roundtrip xs hall
          have hpv : packVector Kind.kF64v (PyVal.pList xs)
              = .ok ⟨xs.length, ((ws.map (natToBytes 8)).flatten)⟩ := by
            simp only [packVector, pyLen, bindOk_eq, hpf]
          refine ⟨⟨xs.length, (ws.map (natToBytes 8)).flatten⟩ :: vps,
            natToBytes 4 xs.length ++ fixed, .fLen xs.length :: fvs, ?_, ?_, ?_, ?_⟩
          · simp only [packVectors, getValue, hgetn, bindOk_eq, hpv, h1]
          · simp only [packFixed]
            rw [if_pos (show (VecPart.mk xs.length
              ((ws.map (natToBytes 8)).flatten)).n < 2 ^ 32 from hlen32), h2]
            rfl
          · intro extra
            have hl4 : (natToBytes 4 xs.length).length = 4 := natToBytes_length 4 _
            rw [List.append_assoc]
            simp only [parseFixed]
            rw [if_pos (by rw [List.length_append, hl4]; omega)]
            rw [List.take_left' hl4, List.drop_left' hl4, h3 extra]
            simp only [bindOk_eq]
            rw [bytesToNat_natToBytes4 _ hlen32]
          · have hvar : ((VecPart.mk xs.length ((ws.map (natToBytes 8)).flatten) :: vps).map
                  VecPart.payload).flatten
                = (ws.map (natToBytes 8)).flatten ++ (vps.map VecPart.payload).flatten := by
              simp
            rw [hvar]
            simp only [buildArgs]
            rw [hparse ((vps.map VecPart.payload).flatten)]
            simp only [bindOk_eq]
            rw [h4]
            rfl
        | pNone => simp [valOk] at hv
        | pInt i => simp [valOk] at hv
        | pFloat w => simp [valOk] at hv
        | pStr cs => simp [valOk] at hv
        | pBytes bs => simp [valOk] at hv


/-- C1 (amended): for every message whose definition is registered under its
id in the registry, whose argument names are distinct, and whose stored
values line up with the declared arguments — in-range `int` values, finite
`float` bit patterns, ASCII-only strings of fewer than `2^32` characters
(the pack format `{n}s` truncates the UTF-8 encoding to the character
count, so non-ASCII strings do not survive), byte strings, and float
vectors whose elements are floats (exactly representable in binary32 for
the `?f` kind) — packing and then unpacking yields a message with the same
definition and exactly the same argument values, for every argument kind
including `Float32Vector` and `Float64Vector`. -/
theorem C1_pack_unpack_roundtrip (reg : Registry) (m : Message)
    (hid : reg.ids.lookup m.definition.id = some m.definition)
    (hid32 : m.definition.id < 2 ^ 32)
    (hnd : (m.definition.args.map Prod.fst).Nodup)
    (hvals : argsMatch m.definition.args m.values = true) :
    ∃ bs, packMessage m = .ok bs ∧
      unpackMessage reg bs = .ok ⟨m.definition, m.values⟩ := by
  have hget : ∀ pq ∈ m.definition.args.zip m.values,
      (fun n => m.values.lookup n) pq.1.1 = some pq.2.2 := by
    intro pq hpq
    obtain ⟨hname, -⟩ := argsMatch_zip m.definition.args m.values hvals pq hpq
    have hmem2 : pq.2 ∈ m.values := (List.mem_zip hpq).2
    have hvnd : (m.values.map Prod.fst).Nodup := by
      rw [argsMatch_names m.definition.args m.values hvals]
      exact hnd
    show m.values.lookup pq.1.1 = some pq.2.2
    rw [← hname]
    exact lookup_self_of_nodup m.values hvnd pq.2 hmem2
  obtain ⟨vps, fixed, fvs, h1, h2, h3, h4⟩ :=
    roundtrip_core (fun n => m.values.lookup n) m.definition.args m.values hvals hget
  refine ⟨natToBytes 4 m.definition.id ++ fixed ++ (vps.map VecPart.payload).flatten,
    ?_, ?_⟩
  · simp only [packMessage]
    rw [if_pos hid32, h1]
    simp only [bindOk_eq]
    rw [h2]
    simp only [bindOk_eq]
  · have hl4 : (natToBytes 4 m.definition.id).length = 4 := natToBytes_length 4 _
    have hge : 4 ≤ (natToBytes 4 m.definition.id ++ fixed
        ++ (vps.map VecPart.payload).flatten).length := by
      rw [List.append_assoc, List.length_append, hl4]
      omega
    have htake : (natToBytes 4 m.definition.id ++ fixed
        ++ (vps.map VecPart.payload).flatten).take 4
        = natToBytes 4 m.definition.id := by
      rw [List.append_assoc]
      exact List.take_left' hl4
    have hdrop : (natToBytes 4 m.definition.id ++ fixed
        ++ (vps.map VecPart.payload).flatten).drop 4
        = fixed ++ (vps.map VecPart.payload).flatten := by
      rw [List.append_assoc]
      exact List.drop_left' hl4
    unfold unpackMessage
    rw [if_pos hge, htake, bytesToNat_natToBytes4 _ hid32]
    simp only [hid]
    rw [hdrop, h3 ((vps.map VecPart.payload).flatten)]
    simp only [bindOk_eq]
    rw [h4]
    simp only [bindOk_eq]
    exact msgSet_canonical m.definition m.values hnd hvals

/-- Counterexample to the literal claim: a registered one-argument `str`
message holding the single non-ASCII character `é` (code point 233 — a value
of the declared kind) packs (the `{n}s` format truncates the two-byte UTF-8
encoding to the one-character count) and then fails to unpack with
`UnicodeDecodeError`; the claim also fails for `Float32Vector` holding
`0.1`, whose binary32 image widens to a different binary64 value. -/
theorem C1_unicode_counterexample :
    packMessage msgStrAccent = .ok [1, 0, 0, 0, 1, 0, 0, 0, 195] ∧
    unpackMessage regStr [1, 0, 0, 0, 1, 0, 0, 0, 195]
      = .error "UnicodeDecodeError" ∧
    scalarOk 233 = true ∧
    f32ToF64bits (f64ToF32bits 0x3FB999999999999A) ≠ 0x3FB999999999999A :=
  ⟨rfl, rfl, rfl, by decide⟩

/-- Witness for C1: the all-kinds message (an int, a float, an ASCII string,
bytes, a binary32-exact `0.5` vector and a `0.1` binary64 vector) packs and
unpacks to itself. -/
theorem C1_pack_unpack_roundtrip_witness :
    ∃ bs, packMessage msgAll = .ok bs ∧
      unpackMessage regAll bs = .ok ⟨msgAll.definition, msgAll.values⟩ :=
  C1_pack_unpack_roundtrip regAll msgAll rfl (by decide) (by decide) rfl

end Wevis
